import Mathlib

/-!
# go-iprs: records, their ordering, the node codec, the chain type and the store

A shallow embedding of `record/record.go`, `record/coding.go`,
`record/typeset.go`, `record/chain/chain.go` and
`store/datastore/datastore.go`.

* Go `int` is embedded as `Int`: the code only compares these integers and
  never does arithmetic on them.
* Go `error` is a message string; a function returning only `error` returns
  `Option Error` (`none` is `nil`), a function returning `(x, error)` returns
  `Except Error x`.
* A Go `panic` is the result `none` of an `Option`.
* The DAG node encoder and decoder (`dag.Node.Marshal`, `dag.Decoded`) belong
  to the merkledag library and are taken as a parameter, `DagCodec`.
* A Go map is a reference to a map object of a `Heap`, so that a copy of a
  map and the map itself are told apart.
* Locks, contexts and deadlines are left out: the model is sequential.
-/

namespace Iprs

/-- One byte of a Go `[]byte`. -/
abbrev Byte := Fin 256

/-- A Go `[]byte`. -/
abbrev Bytes := List Byte

/-- A Go `error` value, identified with its message. -/
abbrev Error := String

/-- A `dag.Link`: a named, hash-addressed edge of a node. -/
structure Link where
  Name : String
  Size : Nat
  Hash : Bytes
deriving DecidableEq, Repr

/-- A `dag.Node`: an ordered list of links and an opaque payload. -/
structure Node where
  Links : List Link
  Data : Bytes
deriving DecidableEq, Repr

/-- The merkledag encoder `(*dag.Node).Marshal` and decoder `dag.Decoded`. -/
structure DagCodec where
  Marshal : Node → Except Error Bytes
  Decoded : Bytes → Except Error Node

/-- What the accessors `Node()`, `Version()`, `Validity()` and `Value()` of a
`Record` return. A `Validator` is handed this view of a record. -/
structure RecordData where
  Node : Node
  Version : Int
  Validity : Bytes
  Value : Bytes
deriving DecidableEq, Repr

/-- The `Validator` interface: `Valid(Record) (bool, error)` and
`Order(a, b Record) int`. -/
structure Validator where
  Valid : RecordData → Bool × Option Error
  Order : RecordData → RecordData → Int

/-- The `Type` interface: `Node()`, `Validator()`, and the constructor `New`
that `coding.go` calls. -/
structure RType where
  Node : Node
  Validator : Validator
  New : Iprs.Node → Except Error RecordData

/-- The `Record` interface: the accessors of `RecordData` and `Type()`
(the field `Typ`). -/
structure Record extends RecordData where
  Typ : RType

/-- `IsValid` of record.go: `return r.Type().Validator().Valid(r)`. -/
def IsValid (r : Record) : Bool × Option Error :=
  r.Typ.Validator.Valid r.toRecordData

/-- `Marshal` of record.go and coding.go: `return r.Node().Marshal()`. -/
def Marshal (c : DagCodec) (r : Record) : Except Error Bytes :=
  c.Marshal r.Node

/-- `mustMarshal` of coding.go: the bytes of `Marshal`, a panic (`none`) when
`Marshal` fails. record.go carries a second copy whose body calls `Marshal()`
without the record; the copy of coding.go, which passes it, is embedded. -/
def mustMarshal (c : DagCodec) (r : Record) : Option Bytes :=
  match Marshal c r with
  | .error _ => none
  | .ok buf => some buf

/-- `bytes.Compare` of the Go standard library: lexicographic comparison of
two byte slices, `0` if `a == b`, `-1` if `a < b`, `+1` if `a > b`. -/
def bytesCompare : Bytes → Bytes → Int
  | [], [] => 0
  | [], _ :: _ => -1
  | _ :: _, [] => 1
  | x :: xs, y :: ys =>
    if x < y then -1
    else if y < x then 1
    else bytesCompare xs ys

/-- `Order` of record.go: versions first, then the validator, then the raw
bytes. `none` is the panic of `mustMarshal`. -/
def Order (c : DagCodec) (validator : Validator) (a b : Record) : Option Int :=
  let av := a.Version
  let bv := b.Version
  if av < bv then some (-1)
  else if av > bv then some 1
  else
    let vo := validator.Order a.toRecordData b.toRecordData
    if vo ≠ 0 then some vo
    else
      match mustMarshal c a with
      | none => none
      | some am =>
        match mustMarshal c b with
        | none => none
        | some bm => some (bytesCompare am bm)

/-- `linkType` of coding.go. -/
def linkType : String := "@type"

/-- `linkValue` of coding.go. -/
def linkValue : String := "value"

/-- `requiredLinks` of coding.go. -/
def requiredLinks : List String := [linkType, linkValue]

/-- The inner loop of `NodeHasRequiredLinks`: scan the links until one is
named `n`. -/
def linkFound (n : String) : List Link → Bool
  | [] => false
  | link :: rest => if link.Name = n then true else linkFound n rest

/-- The error of `NodeHasRequiredLinks`:
`fmt.Errorf("invalid record. missing link: %s", n)`. -/
def missingLinkError (n : String) : Error :=
  "invalid record. missing link: " ++ n

/-- `NodeHasRequiredLinks` of coding.go: the outer loop over the required
names, returning at the first name that no link carries. -/
def NodeHasRequiredLinks (nd : Node) : List String → Option Error
  | [] => none
  | n :: rest =>
    if linkFound n nd.Links then NodeHasRequiredLinks nd rest
    else some (missingLinkError n)

/-- `unmarshalNode` of coding.go: decode, then check the required links. -/
def unmarshalNode (c : DagCodec) (buf : Bytes) : Except Error Node :=
  match c.Decoded buf with
  | .error err => .error err
  | .ok nd =>
    match NodeHasRequiredLinks nd requiredLinks with
    | some err => .error err
    | none => .ok nd

/-- A link named `n` is among the links of `nd`. -/
def HasLinkNamed (nd : Node) (n : String) : Prop :=
  ∃ l ∈ nd.Links, l.Name = n

/-- Sign of the numeric comparison of two integers. -/
def cmpInt (x y : Int) : Int :=
  if x < y then -1 else if y < x then 1 else 0

/-- Bytewise lexicographic comparison, stated with the lexicographic order
of lists: `0` for equal encodings, `-1` when the first is below the second,
`1` otherwise. -/
def lexCompare (x y : Bytes) : Int :=
  if x = y then 0 else if x < y then -1 else 1

/-- The three-tier reference ordering in the words of the specification: the
version comparison when the versions differ, else the validator's answer
`vo` when it is nonzero, else the bytewise comparison of the encodings. -/
def OrderReference (av bv vo : Int) (am bm : Bytes) : Int :=
  if av ≠ bv then cmpInt av bv
  else if vo ≠ 0 then vo
  else lexCompare am bm

/-- The validator's answers on `a, b, c` compose: two ties give a tie, and an
answer `1` followed or preceded by a tie or another `1` gives `1`. -/
def ValidatorComposes (v : Validator) (a b c : Record) : Prop :=
  let ab := v.Order a.toRecordData b.toRecordData
  let bc := v.Order b.toRecordData c.toRecordData
  let ac := v.Order a.toRecordData c.toRecordData
  (ab = 0 → bc = 0 → ac = 0) ∧
  (ab = 1 → bc = 0 → ac = 1) ∧
  (ab = 0 → bc = 1 → ac = 1) ∧
  (ab = 1 → bc = 1 → ac = 1)

/-! ## The type registry (typeset.go) -/

/-- The contents of a Go `map[string]Type`. A key is `string(hash)`, a byte
string. -/
abbrev TypeMap := AList (fun _ : Bytes => RType)

/-- The map objects the program has allocated. A Go map value is a reference
to one of them. -/
structure Heap where
  maps : List TypeMap

/-- A Go map value: `none` is the nil map, `some i` refers to the `i`-th map
object of the heap. -/
abbrev MapRef := Option Nat

/-- The read `m[k]`: the zero value (`nil`, here `none`) on the nil map and
on a key the map does not hold. -/
def mapIndex (h : Heap) (m : MapRef) (k : Bytes) : Option RType :=
  match m with
  | none => none
  | some i =>
    match h.maps[i]? with
    | none => none
    | some tm => tm.lookup k

/-- The assignment `m[k] = v` on the map object `i`. -/
def mapAssign (h : Heap) (i : Nat) (k : Bytes) (v : RType) : Heap :=
  match h.maps[i]? with
  | none => h
  | some tm => ⟨h.maps.set i (tm.insert k v)⟩

/-- The pairs a `range` over the map visits. -/
def mapEntries (h : Heap) (m : MapRef) : List (Bytes × RType) :=
  match m with
  | none => []
  | some i =>
    match h.maps[i]? with
    | none => []
    | some tm => tm.entries.map fun e => (e.1, e.2)

/-- `TypeSet` of typeset.go: the field `types`. The embedded lock is not
part of the sequential model. -/
structure TypeSet where
  types : MapRef

/-- `TypeSet.Type` of typeset.go: `return ts.types[s]`. -/
def TypeSet.Typ (h : Heap) (ts : TypeSet) (s : Bytes) : Option RType :=
  mapIndex h ts.types s

/-- `TypeSet.Types` of typeset.go: allocate `out`, copy every pair of
`ts.types` into it, return it. The result is the heap after the call and the
returned map value. -/
def TypeSet.Types (h : Heap) (ts : TypeSet) : Heap × MapRef :=
  let out := h.maps.length
  let h1 : Heap := ⟨h.maps ++ [∅]⟩
  let h2 := (mapEntries h ts.types).foldl (fun hh kv => mapAssign hh out kv.1 kv.2) h1
  (h2, some out)

/-! ## Decoding by type (coding.go) -/

/-- `(*dag.Node).GetNodeLink` of the merkledag library: the first link with
the given name, `ErrNotFound` when there is none. -/
def GetNodeLink (nd : Node) (name : String) : Except Error Link :=
  match nd.Links.find? (fun l => decide (l.Name = name)) with
  | some l => .ok l
  | none => .error "merkledag: not found"

/-- `nodeType` of coding.go: the hash of the node's `@type` link. -/
def nodeType (nd : Node) : Except Error Bytes :=
  match GetNodeLink nd linkType with
  | .error err =>
    .error ("invalid record. failed to get link " ++ linkType ++ " (" ++ err ++ ")")
  | .ok tl => .ok tl.Hash

/-- The error of `UnmarshalFromSet` for a type the set does not hold:
`fmt.Errorf("unsupported record type %s", key.Key(nt).Pretty())`, with
`pretty` for the printing of keys of the go-ipfs `key` package. -/
def unsupportedTypeError (pretty : Bytes → String) (nt : Bytes) : Error :=
  "unsupported record type " ++ pretty nt

/-- `UnmarshalFromSet` of coding.go. -/
def UnmarshalFromSet (c : DagCodec) (pretty : Bytes → String) (h : Heap) (ts : TypeSet)
    (buf : Bytes) : Except Error RecordData :=
  match unmarshalNode c buf with
  | .error err => .error err
  | .ok nd =>
    match nodeType nd with
    | .error err => .error err
    | .ok nt =>
      match ts.Typ h nt with
      | none => .error (unsupportedTypeError pretty nt)
      | some t => t.New nd

/-- Modelled from the spec: `NodeHasType`, which coding.go calls and no source
file defines. It reports whether the hash of the node's `@type` link equals
the hash of the type's canonical node; `hash` is the hashing of nodes of the
merkledag library. -/
def NodeHasType (hash : Node → Bytes) (nd : Node) (t : RType) : Except Error Bool :=
  match nodeType nd with
  | .error err => .error err
  | .ok nt => .ok (decide (nt = hash t.Node))

/-- `unmarshalTypeNode` of coding.go. -/
def unmarshalTypeNode (c : DagCodec) (hash : Node → Bytes) (t : RType) (buf : Bytes) :
    Except Error Node :=
  match unmarshalNode c buf with
  | .error err => .error err
  | .ok nd =>
    match NodeHasType hash nd t with
    | .error err => .error err
    | .ok ok => if !ok then .error "record type mismatch" else .ok nd

/-- `UnmarshalType` of coding.go. -/
def UnmarshalType (c : DagCodec) (hash : Node → Bytes) (t : RType) (buf : Bytes) :
    Except Error RecordData :=
  match unmarshalTypeNode c hash t buf with
  | .error err => .error err
  | .ok nd => t.New nd

/-! ## The chain record type (record/chain/chain.go) -/

/-- `parentLink` of chain.go. -/
def parentLink : String := "parent"

/-- `recordLink` of chain.go. -/
def recordLink : String := "record"

/-- Modelled from the spec: `pb.Record` of the package record/pb, which is not
among the sources. Its fields are the ones the accessors of chain.go read:
`Version`, `Validity`, `Value`. -/
structure PbRecord where
  Version : Int
  Validity : Bytes
  Value : Bytes
deriving DecidableEq, Repr

/-- `Record` of chain.go: `struct { rd *pb.Record; nd *dag.Node }`. The
pointer `rd` is `none` when it is nil. -/
structure ChainRecord where
  rd : Option PbRecord
  nd : Node
deriving DecidableEq, Repr

/-- `proto.Unmarshal(buf, pb)` of the protobuf library as its caller sees it:
a panic (`none`) or the returned error, given the bytes and the message `pb`
points to (`none` for a nil pointer). What the call decodes is written to that
message; the pointer the caller holds is passed by value and stays as it is. -/
structure ProtoLib where
  Unmarshal : Bytes → Option PbRecord → Option (Option Error)

/-- `chainType.New` of chain.go. The outer `Option` is `none` for a panic.
`rd` is declared by `var rd *pb.Record`, a nil pointer, handed to
`proto.Unmarshal`, and stored in the record. -/
def chainNew (p : ProtoLib) (nd : Node) : Option (Except Error ChainRecord) :=
  match NodeHasRequiredLinks nd [parentLink, recordLink] with
  | some err => some (.error err)
  | none =>
    let rd : Option PbRecord := none
    match p.Unmarshal nd.Data rd with
    | none => none
    | some (some err) => some (.error err)
    | some none => some (.ok ⟨rd, nd⟩)

/-- `Record.Version` of chain.go: `return r.rd.Version`, a panic (`none`)
on a nil `rd`. -/
def ChainRecord.Version (r : ChainRecord) : Option Int :=
  r.rd.map fun m => m.Version

/-- `Record.Validity` of chain.go: `return r.rd.Validity`, a panic (`none`)
on a nil `rd`. -/
def ChainRecord.Validity (r : ChainRecord) : Option Bytes :=
  r.rd.map fun m => m.Validity

/-- `Record.Value` of chain.go: `return r.rd.Value`, a panic (`none`) on a
nil `rd`. -/
def ChainRecord.Value (r : ChainRecord) : Option Bytes :=
  r.rd.map fun m => m.Value

/-- The loop of `Record.Parents` of chain.go over the links of the node.
`resolve` is `l.GetNode(ctx, ds)` of the merkledag library. The loop appends
the identifier `p`, which the function never declares and which is a parameter
here; the node `pnd` it fetched is not used. -/
def parentsLoop (resolve : Link → Except Error Node) (p : ChainRecord) :
    List Link → List ChainRecord → Except Error (List ChainRecord)
  | [], parents => .ok parents
  | l :: rest, parents =>
    if l.Name = parentLink then
      match resolve l with
      | .error err => .error err
      | .ok _ => parentsLoop resolve p rest (parents ++ [p])
    else parentsLoop resolve p rest parents

/-- `Record.Parents` of chain.go. A failing link returns `nil, err` from
inside the loop. After the loop the body ends without a `return` statement:
that path gives no result (`none`). -/
def ChainRecord.Parents (resolve : Link → Except Error Node) (p : ChainRecord)
    (r : ChainRecord) : Option (Except Error (List ChainRecord)) :=
  match parentsLoop resolve p r.nd.Links [] with
  | .error err => some (.error err)
  | .ok _ => none

/-- The links of a list that are named `parent`, in their order. -/
def parentLinksOf (links : List Link) : List Link :=
  links.filter fun l => decide (l.Name = parentLink)

/-- The number of links of `nd` named `n`. -/
def linkCount (nd : Node) (n : String) : Nat :=
  (nd.Links.filter fun l => decide (l.Name = n)).length

/-! ## The datastore-backed store (store/store.go, store/datastore/datastore.go) -/

/-- `Path` of store.go: `type Path string`. -/
abbrev Path := String

/-- `ds.Key` of go-datastore. -/
abbrev Key := String

/-- The `ds.Datastore` interface of go-datastore over the states `σ` of a
key/value store: `Put(key, value) error` and `Get(key) (value, error)`. -/
structure Datastore (σ : Type) where
  Put : σ → Key → Bytes → σ × Option Error
  Get : σ → Key → Except Error Bytes

/-- `Store` of datastore.go: `struct { ts *record.TypeSet; ds ds.Datastore }`. -/
structure Store (σ : Type) where
  ts : TypeSet
  ds : Datastore σ

/-- What the store takes from outside: the node codec, the printing of keys,
`ds.NewKey`, and the heap that holds the map of the type set. -/
structure StoreEnv where
  codec : DagCodec
  pretty : Bytes → String
  NewKey : String → Key
  heap : Heap

/-- `Store.Put` of datastore.go: marshal, then write at the key of the path.
The result is the state of the datastore after the call and the error. -/
def Store.Put {σ : Type} (e : StoreEnv) (s : Store σ) (st : σ) (p : Path) (r : Record) :
    σ × Option Error :=
  let k := e.NewKey p
  match Marshal e.codec r with
  | .error err => (st, some err)
  | .ok m => s.ds.Put st k m

/-- Modelled from the spec: `TypeSet.Unmarshal`, which datastore.go calls and
typeset.go does not define. The spec gives `Get` as read followed by
`UnmarshalFromSet` against the injected type set. -/
def TypeSet.Unmarshal (e : StoreEnv) (ts : TypeSet) (m : Bytes) : Except Error RecordData :=
  UnmarshalFromSet e.codec e.pretty e.heap ts m

/-- `Store.Get` of datastore.go: read at the key of the path, then
`s.ts.Unmarshal(m)`. -/
def Store.Get {σ : Type} (e : StoreEnv) (s : Store σ) (st : σ) (p : Path) :
    Except Error RecordData :=
  let k := e.NewKey p
  match s.ds.Get st k with
  | .error err => .error err
  | .ok m => s.ts.Unmarshal e m

/-- A Go channel: the buffered values, the capacity, and whether it is
closed. -/
structure Chan (α : Type) where
  buf : List α
  cap : Nat
  closed : Bool

/-- `make(chan T, cap)`. -/
def Chan.make {α : Type} (cap : Nat) : Chan α :=
  ⟨[], cap, false⟩

/-- `ch <- x` with no receiver around: a panic on a closed channel, a send
that blocks for ever on a full buffer (both `none`), else the value joins the
buffer. -/
def Chan.send {α : Type} (ch : Chan α) (x : α) : Option (Chan α) :=
  if ch.closed then none
  else if ch.buf.length < ch.cap then some { ch with buf := ch.buf ++ [x] }
  else none

/-- `close(ch)`: a panic (`none`) on a closed channel. -/
def Chan.close {α : Type} (ch : Chan α) : Option (Chan α) :=
  if ch.closed then none else some { ch with closed := true }

/-- `<-ch`: the next buffered value and the channel after it; `none` when
the buffer is empty, where the receive reports the end on a closed channel
and blocks on an open one. -/
def Chan.recv {α : Type} (ch : Chan α) : Option (α × Chan α) :=
  match ch.buf with
  | [] => none
  | x :: rest => some (x, { ch with buf := rest })

/-- `Store.GetChan` of datastore.go: `Get`, then a channel of capacity 1 that
is sent the record and closed. The outer `Option` is `none` for a panic or a
send that blocks. -/
def Store.GetChan {σ : Type} (e : StoreEnv) (s : Store σ) (st : σ) (p : Path) :
    Option (Except Error (Chan RecordData)) :=
  match Store.Get e s st p with
  | .error err => some (.error err)
  | .ok r =>
    match (Chan.make 1).send r with
    | none => none
    | some ch =>
      match ch.close with
      | none => none
      | some ch => some (.ok ch)

/-- Put the records of a list at `p` one after the other: the state after the
last one, `none` as soon as a `Put` returns an error. -/
def putAll {σ : Type} (e : StoreEnv) (s : Store σ) (p : Path) : σ → List Record → Option σ
  | st, [] => some st
  | st, r :: rest =>
    match Store.Put e s st p r with
    | (st', none) => putAll e s p st' rest
    | (_, some _) => none

/-- The datastore contract the store relies on: a value written without
error at a key is the value read at that key. -/
def Datastore.GetAfterPut {σ : Type} (d : Datastore σ) : Prop :=
  ∀ (st st' : σ) (k : Key) (v : Bytes), d.Put st k v = (st', none) → d.Get st' k = .ok v

/-- The contract of a key/value datastore, stated over what a state holds at
each key (`contents`): a `Put` that returns no error sets the value at its key
and leaves the other keys as they were, `Get` returns the value held at the
key, and `Get` returns an error at a key that holds no value. -/
structure Datastore.Lawful {σ : Type} (d : Datastore σ)
    (contents : σ → Key → Option Bytes) : Prop where
  put_ok : ∀ (st st' : σ) (k : Key) (v : Bytes), d.Put st k v = (st', none) →
    ∀ k', contents st' k' = if k' = k then some v else contents st k'
  get_some : ∀ (st : σ) (k : Key) (v : Bytes), contents st k = some v → d.Get st k = .ok v
  get_none : ∀ (st : σ) (k : Key), contents st k = none → ∃ err, d.Get st k = .error err

/-- Put each record of a list at its own path, one after the other: the state
after the last one, `none` as soon as a `Put` returns an error. -/
def putEach {σ : Type} (e : StoreEnv) (s : Store σ) : σ → List (Path × Record) → Option σ
  | st, [] => some st
  | st, op :: rest =>
    match Store.Put e s st op.1 op.2 with
    | (st', none) => putEach e s st' rest
    | (_, some _) => none

/-! ## Sample values -/

/-- A small codec: a node is encoded as its payload, and the first byte of an
encoding selects the links of the decoded node. -/
def sampleCodec : DagCodec where
  Marshal := fun nd => .ok nd.Data
  Decoded := fun buf =>
    match buf with
    | [] => .error "unexpected EOF"
    | 0 :: d => .ok ⟨[], d⟩
    | 1 :: d => .ok ⟨[⟨"@type", 0, [7]⟩], d⟩
    | 2 :: d => .ok ⟨[⟨"value", 0, [9]⟩], d⟩
    | _ :: d => .ok ⟨[⟨"value", 0, [9]⟩, ⟨"@type", 0, [7]⟩], d⟩

/-- A codec whose encoder rejects every node. -/
def failingCodec : DagCodec where
  Marshal := fun _ => .error "marshal failed"
  Decoded := fun _ => .error "unexpected EOF"

/-- A validator that accepts every record and answers `k` to every pair. -/
def constValidator (k : Int) : Validator where
  Valid := fun _ => (true, none)
  Order := fun _ _ => k

/-- A validator that prefers validity `[1]` over validity `[0]` and reports a
tie on every other pair. -/
def pairValidator : Validator where
  Valid := fun _ => (true, none)
  Order := fun x y =>
    if x.Validity = [1] ∧ y.Validity = [0] then 1
    else if x.Validity = [0] ∧ y.Validity = [1] then -1
    else 0

/-- A validator that reports every record valid together with an error. -/
def validWithErrorValidator : Validator where
  Valid := fun _ => (true, some "clock unavailable")
  Order := fun _ _ => 0

/-- A record type around the validator `v`. -/
def sampleType (v : Validator) : RType where
  Node := ⟨[], [42]⟩
  Validator := v
  New := fun nd => .ok ⟨nd, 0, [], nd.Data⟩

/-- A record of version `ver` with payload `d` and validity `vy`. -/
def sampleRecord (ver : Int) (d vy : Bytes) : Record where
  Node := ⟨[⟨"@type", 0, [7]⟩, ⟨"value", 0, [9]⟩], d⟩
  Version := ver
  Validity := vy
  Value := d
  Typ := sampleType (constValidator 0)

/-- A record whose type carries `validWithErrorValidator`. -/
def flaggedRecord : Record where
  Node := ⟨[⟨"@type", 0, [7]⟩, ⟨"value", 0, [9]⟩], [1]⟩
  Version := 1
  Validity := []
  Value := [1]
  Typ := sampleType validWithErrorValidator

/-- A codec for nodes with the links `@type` and `value`: a node is encoded as
its payload and decoded with these two links. -/
def linkedCodec : DagCodec where
  Marshal := fun nd => .ok nd.Data
  Decoded := fun buf => .ok ⟨[⟨"@type", 0, [7]⟩, ⟨"value", 0, [9]⟩], buf⟩

/-- A record type whose constructor reads the version from the first byte of
the payload and the value from the rest. -/
def payloadType : RType where
  Node := ⟨[], [42]⟩
  Validator := constValidator 0
  New := fun nd =>
    match nd.Data with
    | [] => .error "empty payload"
    | v :: rest => .ok ⟨nd, (v.val : Int), [], rest⟩

/-- A record of `payloadType` with version `ver` and value `d`. -/
def payloadRecord (ver : Byte) (d : Bytes) : Record where
  Node := ⟨[⟨"@type", 0, [7]⟩, ⟨"value", 0, [9]⟩], ver :: d⟩
  Version := (ver.val : Int)
  Validity := []
  Value := d
  Typ := payloadType

/-- A heap with one map object, which holds `payloadType` under the key
`[7]`. -/
def sampleHeap : Heap :=
  ⟨[(∅ : TypeMap).insert [7] payloadType]⟩

/-- The type set whose map is the map object of `sampleHeap`. -/
def sampleTypeSet : TypeSet :=
  ⟨some 0⟩

/-- A type set whose map was never initialised. -/
def nilTypeSet : TypeSet :=
  ⟨none⟩

/-- The hashing of nodes used in the samples: the payload of the node. -/
def sampleHash (nd : Node) : Bytes :=
  nd.Data

/-- An in-memory datastore: a state maps keys to values, `Put` overwrites the
value at the key, `Get` fails on a key without a value. -/
def mapDatastore : Datastore (Key → Option Bytes) where
  Put := fun st k v => (fun k' => if k' = k then some v else st k', none)
  Get := fun st k =>
    match st k with
    | none => .error "datastore: key not found"
    | some v => .ok v

/-- The empty state of `mapDatastore`. -/
def emptyBackend : Key → Option Bytes :=
  fun _ => none

/-- The surroundings of the sample store. -/
def sampleEnv : StoreEnv where
  codec := linkedCodec
  pretty := fun _ => "Qm"
  NewKey := fun s => s
  heap := sampleHeap

/-- The sample store: `sampleTypeSet` over `mapDatastore`. -/
def sampleStore : Store (Key → Option Bytes) :=
  ⟨sampleTypeSet, mapDatastore⟩

/-- A protobuf library whose `Unmarshal` returns no error. -/
def sampleProto : ProtoLib where
  Unmarshal := fun _ _ => some none

/-- A link resolver that fails on the hash `[0]`. -/
def sampleResolve (l : Link) : Except Error Node :=
  if l.Hash = [0] then .error "merkledag: not found" else .ok ⟨[], l.Hash⟩

/-- A chain node with the links `parent` (twice), `record`, `@type`, `value`. -/
def sampleChainNode : Node :=
  ⟨[⟨"@type", 0, [7]⟩, ⟨"value", 0, [9]⟩, ⟨"parent", 0, [1]⟩, ⟨"record", 0, [3]⟩,
    ⟨"parent", 0, [2]⟩], [1, 5]⟩

/-- The surroundings of the sample store with a heap whose map holds, under
the key `[7]`, the type of `sampleRecord`, whose constructor gives every
record the version `0`. -/
def lossyEnv : StoreEnv where
  codec := linkedCodec
  pretty := fun _ => "Qm"
  NewKey := fun s => s
  heap := ⟨[(∅ : TypeMap).insert [7] (sampleType (constValidator 0))]⟩

/-- A store over `mapDatastore` whose type set holds no type. -/
def untypedStore : Store (Key → Option Bytes) :=
  ⟨nilTypeSet, mapDatastore⟩

/-! ## Comparison of byte slices -/

theorem bytesCompare_range (a b : Bytes) :
    bytesCompare a b = -1 ∨ bytesCompare a b = 0 ∨ bytesCompare a b = 1 := by
  induction a generalizing b with
  | nil => cases b <;> simp [bytesCompare]
  | cons x xs ih =>
    cases b with
    | nil => simp [bytesCompare]
    | cons y ys =>
      simp only [bytesCompare]
      split_ifs
      · simp
      · simp
      · exact ih ys

theorem bytesCompare_eq_zero_iff (a b : Bytes) : bytesCompare a b = 0 ↔ a = b := by
  induction a generalizing b with
  | nil => cases b <;> simp [bytesCompare]
  | cons x xs ih =>
    cases b with
    | nil => simp [bytesCompare]
    | cons y ys =>
      simp only [bytesCompare]
      split_ifs with h1 h2
      · simp; intro h; exact absurd h (ne_of_lt h1)
      · simp; intro h; exact absurd h.symm (ne_of_lt h2)
      · have hxy : x = y := le_antisymm (not_lt.mp h2) (not_lt.mp h1)
        simp [ih ys, hxy]

theorem bytesCompare_antisymm (a b : Bytes) : bytesCompare a b = -bytesCompare b a := by
  induction a generalizing b with
  | nil => cases b <;> simp [bytesCompare]
  | cons x xs ih =>
    cases b with
    | nil => simp [bytesCompare]
    | cons y ys =>
      simp only [bytesCompare]
      split_ifs with h1 h2
      · exact absurd h2 (lt_asymm h1)
      · simp
      · rfl
      · exact ih ys

theorem bytesCompare_trans (a b c : Bytes)
    (hab : bytesCompare a b = 1) (hbc : bytesCompare b c = 1) : bytesCompare a c = 1 := by
  induction a generalizing b c with
  | nil => cases b <;> simp [bytesCompare] at hab
  | cons x xs ih =>
    cases b with
    | nil => cases c <;> simp [bytesCompare] at hbc
    | cons y ys =>
      cases c with
      | nil => simp [bytesCompare]
      | cons z zs =>
        simp only [bytesCompare] at hab hbc ⊢
        split_ifs at hab with h1 h2
        · have hyx : y ≤ x := le_of_lt h2
          split_ifs at hbc with h3 h4
          · have hzx : z < x := lt_of_lt_of_le h4 hyx
            simp [hzx, not_lt_of_lt hzx]
          · have hyz : y = z := le_antisymm (not_lt.mp h4) (not_lt.mp h3)
            subst hyz
            simp [h2, h1]
        · have hxy : x = y := le_antisymm (not_lt.mp h2) (not_lt.mp h1)
          subst hxy
          split_ifs at hbc with h3 h4
          · simp [h4, h3]
          · simp [h3, h4]
            exact ih ys zs hab hbc

theorem bytesCompare_eq_lexCompare (a b : Bytes) : bytesCompare a b = lexCompare a b := by
  induction a generalizing b with
  | nil =>
    cases b with
    | nil => simp [bytesCompare, lexCompare]
    | cons y ys =>
      have h : ([] : Bytes) < y :: ys := List.Lex.nil
      simp [bytesCompare, lexCompare, h]
  | cons x xs ih =>
    cases b with
    | nil =>
      have h : ¬ (x :: xs < ([] : Bytes)) := fun h => by cases h
      simp [bytesCompare, lexCompare, h]
    | cons y ys =>
      simp only [bytesCompare]
      split_ifs with h1 h2
      · have h : x :: xs < y :: ys := List.Lex.rel h1
        have hne : x :: xs ≠ y :: ys := fun he => ne_of_lt h1 (List.cons.inj he).1
        simp [lexCompare, h, hne]
      · have h : ¬ (x :: xs < y :: ys) := by
          intro h
          cases h with
          | cons _ => exact lt_irrefl _ h2
          | rel h => exact h1 h
        have hne : x :: xs ≠ y :: ys := fun he => ne_of_lt h2 (List.cons.inj he).1.symm
        simp [lexCompare, h, hne]
      · have hxy : x = y := le_antisymm (not_lt.mp h2) (not_lt.mp h1)
        subst hxy
        rw [ih ys]
        have hlt : (x :: xs < x :: ys) ↔ xs < ys := by
          constructor
          · intro h
            cases h with
            | cons h => exact h
            | rel h => exact absurd h h1
          · intro h
            exact List.Lex.cons h
        simp [lexCompare, hlt]

/-! ## The ordering of records -/

theorem mustMarshal_of_ok (c : DagCodec) (r : Record) (m : Bytes)
    (h : Marshal c r = .ok m) : mustMarshal c r = some m := by
  simp [mustMarshal, h]

theorem mustMarshal_eq_none_iff (c : DagCodec) (r : Record) :
    mustMarshal c r = none ↔ ∃ e, Marshal c r = .error e := by
  unfold mustMarshal
  cases h : Marshal c r <;> simp

theorem Order_of_version_lt (c : DagCodec) (v : Validator) (a b : Record)
    (h : a.Version < b.Version) : Order c v a b = some (-1) := by
  simp [Order, h]

theorem Order_of_version_gt (c : DagCodec) (v : Validator) (a b : Record)
    (h : b.Version < a.Version) : Order c v a b = some 1 := by
  simp [Order, h, not_lt_of_lt h]

theorem Order_of_validator_ne_zero (c : DagCodec) (v : Validator) (a b : Record)
    (h : a.Version = b.Version) (hv : v.Order a.toRecordData b.toRecordData ≠ 0) :
    Order c v a b = some (v.Order a.toRecordData b.toRecordData) := by
  simp [Order, h, hv]

theorem Order_of_tie (c : DagCodec) (v : Validator) (a b : Record)
    (h : a.Version = b.Version) (hv : v.Order a.toRecordData b.toRecordData = 0) :
    Order c v a b =
      (mustMarshal c a).bind fun am => (mustMarshal c b).map fun bm => bytesCompare am bm := by
  simp only [Order, h, lt_irrefl, gt_iff_lt, if_false, hv, ne_eq, not_true_eq_false]
  cases mustMarshal c a <;> cases mustMarshal c b <;> rfl

/-- C1. Version dominance: a strictly higher version gives `1` and a strictly
lower version gives `-1`, whatever the validator answers, and with differing
versions the result is the same for every validator and every encoder. -/
theorem Order_version_dominance (c c' : DagCodec) (v v' : Validator) (a b : Record) :
    (b.Version < a.Version → Order c v a b = some 1) ∧
    (a.Version < b.Version → Order c v a b = some (-1)) ∧
    (a.Version ≠ b.Version → Order c v a b = Order c' v' a b) := by
  refine ⟨Order_of_version_gt c v a b, Order_of_version_lt c v a b, ?_⟩
  intro hne
  rcases lt_or_gt_of_ne hne with h | h
  · rw [Order_of_version_lt c v a b h, Order_of_version_lt c' v' a b h]
  · rw [Order_of_version_gt c v a b h, Order_of_version_gt c' v' a b h]

/-- C1, applied: version 2 against version 1 under a validator that answers
`-1`, version 1 against version 2 under a validator that answers `1`, and the
same pair under a failing encoder. -/
theorem Order_version_dominance_witness :
    Order sampleCodec (constValidator (-1)) (sampleRecord 2 [1] []) (sampleRecord 1 [2] [])
      = some 1 ∧
    Order sampleCodec (constValidator 1) (sampleRecord 1 [2] []) (sampleRecord 2 [1] [])
      = some (-1) ∧
    Order sampleCodec (constValidator 1) (sampleRecord 1 [2] []) (sampleRecord 2 [1] [])
      = Order failingCodec (constValidator 0) (sampleRecord 1 [2] []) (sampleRecord 2 [1] []) :=
  ⟨(Order_version_dominance sampleCodec sampleCodec (constValidator (-1)) (constValidator 0)
      (sampleRecord 2 [1] []) (sampleRecord 1 [2] [])).1 (by decide),
   (Order_version_dominance sampleCodec sampleCodec (constValidator 1) (constValidator 0)
      (sampleRecord 1 [2] []) (sampleRecord 2 [1] [])).2.1 (by decide),
   (Order_version_dominance sampleCodec failingCodec (constValidator 1) (constValidator 0)
      (sampleRecord 1 [2] []) (sampleRecord 2 [1] [])).2.2 (by decide)⟩

/-- C2. Determinism: when both records marshal and their encodings differ,
`Order` returns a nonzero value, whatever the validator answers. -/
theorem Order_ne_zero_of_marshal_ne (c : DagCodec) (v : Validator) (a b : Record)
    (am bm : Bytes) (ha : Marshal c a = .ok am) (hb : Marshal c b = .ok bm)
    (hne : am ≠ bm) : ∃ r, Order c v a b = some r ∧ r ≠ 0 := by
  rcases lt_trichotomy a.Version b.Version with h | h | h
  · exact ⟨-1, Order_of_version_lt c v a b h, by decide⟩
  · by_cases hv : v.Order a.toRecordData b.toRecordData = 0
    · refine ⟨bytesCompare am bm, ?_, ?_⟩
      · rw [Order_of_tie c v a b h hv, mustMarshal_of_ok c a am ha, mustMarshal_of_ok c b bm hb]
        rfl
      · intro h0
        exact hne ((bytesCompare_eq_zero_iff am bm).mp h0)
    · exact ⟨_, Order_of_validator_ne_zero c v a b h hv, hv⟩
  · exact ⟨1, Order_of_version_gt c v a b h, by decide⟩

/-- C2, applied: two records of equal version with payloads `[1]` and `[2]`
under the validator that always answers `0`. -/
theorem Order_ne_zero_of_marshal_ne_witness :
    ∃ r, Order sampleCodec (constValidator 0) (sampleRecord 1 [1] []) (sampleRecord 1 [2] [])
      = some r ∧ r ≠ 0 :=
  Order_ne_zero_of_marshal_ne sampleCodec (constValidator 0) (sampleRecord 1 [1] [])
    (sampleRecord 1 [2] []) [1] [2] rfl rfl (by decide)

/-- C3, as stated, fails: under a validator that answers `1` to every pair,
two records of equal version compare as `1` in both directions. -/
theorem Order_antisymmetry_counterexample :
    Order sampleCodec (constValidator 1) (sampleRecord 1 [1] []) (sampleRecord 1 [2] [])
      = some 1 ∧
    Order sampleCodec (constValidator 1) (sampleRecord 1 [2] []) (sampleRecord 1 [1] [])
      = some 1 ∧
    Order sampleCodec (constValidator 1) (sampleRecord 1 [1] []) (sampleRecord 1 [2] [])
      ≠ (Order sampleCodec (constValidator 1) (sampleRecord 1 [2] [])
          (sampleRecord 1 [1] [])).map fun r => -r := by
  decide

/-- C3, amended. When the validator's answer on `(a, b)` is the negation of
its answer on `(b, a)`, `Order v a b` and `Order v b a` either both panic in
`mustMarshal` or both return, and then `Order v a b = -Order v b a`. -/
theorem Order_antisymm_of_validator (c : DagCodec) (v : Validator) (a b : Record)
    (hv : v.Order a.toRecordData b.toRecordData = -v.Order b.toRecordData a.toRecordData) :
    Order c v a b = (Order c v b a).map fun r => -r := by
  rcases lt_trichotomy a.Version b.Version with h | h | h
  · rw [Order_of_version_lt c v a b h, Order_of_version_gt c v b a h]
    rfl
  · by_cases h0 : v.Order b.toRecordData a.toRecordData = 0
    · have h0' : v.Order a.toRecordData b.toRecordData = 0 := by rw [hv, h0]; rfl
      rw [Order_of_tie c v a b h h0', Order_of_tie c v b a h.symm h0]
      cases mustMarshal c a with
      | none => cases mustMarshal c b <;> rfl
      | some am =>
        cases mustMarshal c b with
        | none => rfl
        | some bm => exact congrArg some (bytesCompare_antisymm am bm)
    · have h0' : v.Order a.toRecordData b.toRecordData ≠ 0 := by
        rw [hv]
        exact neg_ne_zero.mpr h0
      rw [Order_of_validator_ne_zero c v a b h h0',
        Order_of_validator_ne_zero c v b a h.symm h0, hv]
      rfl
  · rw [Order_of_version_gt c v a b h, Order_of_version_lt c v b a h]
    rfl

/-- C3, amended, applied: the pair-preferring validator on two records of
equal version with validities `[1]` and `[0]`. -/
theorem Order_antisymm_of_validator_witness :
    Order sampleCodec pairValidator (sampleRecord 1 [0] [1]) (sampleRecord 1 [2] [0])
      = (Order sampleCodec pairValidator (sampleRecord 1 [2] [0])
          (sampleRecord 1 [0] [1])).map fun r => -r :=
  Order_antisymm_of_validator sampleCodec pairValidator (sampleRecord 1 [0] [1])
    (sampleRecord 1 [2] [0]) (by decide)

/-- C4, as stated, fails: under a validator that answers `1` to every pair, a
record compared with itself gives `1`. -/
theorem Order_reflexivity_counterexample :
    Order sampleCodec (constValidator 1) (sampleRecord 1 [1] []) (sampleRecord 1 [1] [])
      = some 1 ∧
    Order sampleCodec (constValidator 1) (sampleRecord 1 [1] []) (sampleRecord 1 [1] [])
      ≠ some 0 := by
  decide

/-- C4, amended. When the validator reports a tie on `(a, a)` and `a`
marshals, `Order v a a` returns `0`. -/
theorem Order_refl_of_validator_tie (c : DagCodec) (v : Validator) (a : Record) (am : Bytes)
    (hv : v.Order a.toRecordData a.toRecordData = 0) (ha : Marshal c a = .ok am) :
    Order c v a a = some 0 := by
  rw [Order_of_tie c v a a rfl hv, mustMarshal_of_ok c a am ha]
  exact congrArg some ((bytesCompare_eq_zero_iff am am).mpr rfl)

/-- C4, amended, applied: a record under the validator that always answers
`0`. -/
theorem Order_refl_of_validator_tie_witness :
    Order sampleCodec (constValidator 0) (sampleRecord 1 [1] []) (sampleRecord 1 [1] [])
      = some 0 :=
  Order_refl_of_validator_tie sampleCodec (constValidator 0) (sampleRecord 1 [1] []) [1]
    rfl rfl

/-- C5. When both records marshal, `Order` returns the three-tier reference
ordering: the sign of the version comparison when the versions differ, else
the validator's nonzero answer, else the bytewise lexicographic comparison of
the two encodings, which is `0` exactly when the encodings are equal. -/
theorem Order_eq_OrderReference (c : DagCodec) (v : Validator) (a b : Record)
    (am bm : Bytes) (ha : Marshal c a = .ok am) (hb : Marshal c b = .ok bm) :
    Order c v a b
      = some (OrderReference a.Version b.Version
          (v.Order a.toRecordData b.toRecordData) am bm) ∧
    (lexCompare am bm = 0 ↔ am = bm) := by
  constructor
  · rcases lt_trichotomy a.Version b.Version with h | h | h
    · rw [Order_of_version_lt c v a b h]
      simp [OrderReference, cmpInt, h, ne_of_lt h]
    · by_cases hv : v.Order a.toRecordData b.toRecordData = 0
      · rw [Order_of_tie c v a b h hv, mustMarshal_of_ok c a am ha,
          mustMarshal_of_ok c b bm hb]
        simp [OrderReference, h, hv, bytesCompare_eq_lexCompare]
      · rw [Order_of_validator_ne_zero c v a b h hv]
        simp [OrderReference, h, hv]
    · rw [Order_of_version_gt c v a b h]
      simp [OrderReference, cmpInt, h, not_lt_of_lt h, ne_of_gt h]
  · rw [← bytesCompare_eq_lexCompare]
    exact bytesCompare_eq_zero_iff am bm

/-- C5, applied: equal versions, a validator tie, payloads `[1, 2]` and
`[1, 3]`. -/
theorem Order_eq_OrderReference_witness :
    Order sampleCodec (constValidator 0) (sampleRecord 1 [1, 2] []) (sampleRecord 1 [1, 3] [])
      = some (OrderReference 1 1 0 [1, 2] [1, 3]) ∧
    (lexCompare [1, 2] [1, 3] = 0 ↔ ([1, 2] : Bytes) = [1, 3]) :=
  Order_eq_OrderReference sampleCodec (constValidator 0) (sampleRecord 1 [1, 2] [])
    (sampleRecord 1 [1, 3] []) [1, 2] [1, 3] rfl rfl

/-- C6, as stated, fails: under a validator that answers `2`, `Order` returns
`2` on two records of equal version. -/
theorem Order_range_counterexample :
    Order sampleCodec (constValidator 2) (sampleRecord 1 [1] []) (sampleRecord 1 [2] [])
      = some 2 ∧
    ¬ ((2 : Int) = -1 ∨ (2 : Int) = 0 ∨ (2 : Int) = 1) := by
  decide

/-- C6, amended. When the validator's answer on `(a, b)` is one of `-1, 0, 1`,
`Order v a b` either returns one of `-1, 0, 1`, or panics in `mustMarshal`
because `a` or `b` does not marshal. -/
theorem Order_range_of_validator_range (c : DagCodec) (v : Validator) (a b : Record)
    (hv : v.Order a.toRecordData b.toRecordData = -1 ∨
      v.Order a.toRecordData b.toRecordData = 0 ∨
      v.Order a.toRecordData b.toRecordData = 1) :
    (∃ r, Order c v a b = some r ∧ (r = -1 ∨ r = 0 ∨ r = 1)) ∨
    (Order c v a b = none ∧
      ((∃ e, Marshal c a = .error e) ∨ (∃ e, Marshal c b = .error e))) := by
  rcases lt_trichotomy a.Version b.Version with h | h | h
  · exact Or.inl ⟨-1, Order_of_version_lt c v a b h, Or.inl rfl⟩
  · by_cases h0 : v.Order a.toRecordData b.toRecordData = 0
    · rw [Order_of_tie c v a b h h0]
      cases hma : mustMarshal c a with
      | none =>
        exact Or.inr ⟨rfl, Or.inl ((mustMarshal_eq_none_iff c a).mp hma)⟩
      | some am =>
        cases hmb : mustMarshal c b with
        | none =>
          exact Or.inr ⟨rfl, Or.inr ((mustMarshal_eq_none_iff c b).mp hmb)⟩
        | some bm =>
          exact Or.inl ⟨bytesCompare am bm, rfl, bytesCompare_range am bm⟩
    · exact Or.inl ⟨_, Order_of_validator_ne_zero c v a b h h0, hv⟩
  · exact Or.inl ⟨1, Order_of_version_gt c v a b h, Or.inr (Or.inr rfl)⟩

/-- C6, amended, applied: the pair-preferring validator on validities `[0]`
and `[1]`, where it answers `-1`. -/
theorem Order_range_of_validator_range_witness :
    (∃ r, Order sampleCodec pairValidator (sampleRecord 1 [1] [0]) (sampleRecord 1 [2] [1])
        = some r ∧ (r = -1 ∨ r = 0 ∨ r = 1)) ∨
    (Order sampleCodec pairValidator (sampleRecord 1 [1] [0]) (sampleRecord 1 [2] [1]) = none ∧
      ((∃ e, Marshal sampleCodec (sampleRecord 1 [1] [0]) = .error e) ∨
        (∃ e, Marshal sampleCodec (sampleRecord 1 [2] [1]) = .error e))) :=
  Order_range_of_validator_range sampleCodec pairValidator (sampleRecord 1 [1] [0])
    (sampleRecord 1 [2] [1]) (Or.inl (by decide))

theorem Order_eq_one_version_le (c : DagCodec) (v : Validator) (a b : Record)
    (h : Order c v a b = some 1) : b.Version ≤ a.Version := by
  by_contra hlt
  rw [Order_of_version_lt c v a b (not_le.mp hlt)] at h
  exact absurd h (by decide)

theorem Order_eq_one_cases (c : DagCodec) (v : Validator) (a b : Record)
    (hver : a.Version = b.Version) (h : Order c v a b = some 1) :
    v.Order a.toRecordData b.toRecordData = 1 ∨
    (v.Order a.toRecordData b.toRecordData = 0 ∧
      ∃ am bm, mustMarshal c a = some am ∧ mustMarshal c b = some bm ∧
        bytesCompare am bm = 1) := by
  by_cases h0 : v.Order a.toRecordData b.toRecordData = 0
  · right
    refine ⟨h0, ?_⟩
    rw [Order_of_tie c v a b hver h0] at h
    cases hma : mustMarshal c a with
    | none => rw [hma] at h; exact absurd h (by simp)
    | some am =>
      cases hmb : mustMarshal c b with
      | none => rw [hma, hmb] at h; exact absurd h (by simp)
      | some bm =>
        rw [hma, hmb] at h
        exact ⟨am, bm, rfl, rfl, Option.some.inj h⟩
  · left
    rw [Order_of_validator_ne_zero c v a b hver h0] at h
    exact Option.some.inj h

/-- C7, as stated, fails: the pair-preferring validator answers `1`, `-1` and
`0` only, is antisymmetric and transitive, and still `Order` puts `a` above
`b` (validator), `b` above `c` (bytes) and `a` below `c` (bytes). -/
theorem Order_transitivity_counterexample :
    Order sampleCodec pairValidator (sampleRecord 1 [0] [1]) (sampleRecord 1 [2] [0])
      = some 1 ∧
    Order sampleCodec pairValidator (sampleRecord 1 [2] [0]) (sampleRecord 1 [1] [2])
      = some 1 ∧
    Order sampleCodec pairValidator (sampleRecord 1 [0] [1]) (sampleRecord 1 [1] [2])
      = some (-1) ∧
    Order sampleCodec pairValidator (sampleRecord 1 [0] [1]) (sampleRecord 1 [1] [2])
      ≠ some 1 := by
  decide

/-- C7, amended. When the validator's answers on `a, b, c` compose (two ties
give a tie; an answer `1` next to a tie or to another `1` gives `1`), `Order`
is transitive on them: `Order v a b = 1` and `Order v b c = 1` give
`Order v a c = 1`. -/
theorem Order_trans_of_validator (c : DagCodec) (v : Validator) (a b d : Record)
    (hv : ValidatorComposes v a b d)
    (hab : Order c v a b = some 1) (hbd : Order c v b d = some 1) :
    Order c v a d = some 1 := by
  have h1 := Order_eq_one_version_le c v a b hab
  have h2 := Order_eq_one_version_le c v b d hbd
  by_cases hlt : d.Version < a.Version
  · exact Order_of_version_gt c v a d hlt
  · have had : a.Version = d.Version := le_antisymm (not_lt.mp hlt) (le_trans h2 h1)
    have hab' : a.Version = b.Version := le_antisymm (had ▸ h2) h1
    have hbd' : b.Version = d.Version := hab'.symm.trans had
    obtain ⟨t00, t10, t01, t11⟩ := hv
    rcases Order_eq_one_cases c v a b hab' hab with e1 | ⟨e1, am, bm, ha, hb, hc1⟩
    · rcases Order_eq_one_cases c v b d hbd' hbd with e2 | ⟨e2, _, _, _, _, _⟩
      · have e3 := t11 e1 e2
        rw [Order_of_validator_ne_zero c v a d had (by rw [e3]; decide), e3]
      · have e3 := t10 e1 e2
        rw [Order_of_validator_ne_zero c v a d had (by rw [e3]; decide), e3]
    · rcases Order_eq_one_cases c v b d hbd' hbd with e2 | ⟨e2, bm', dm, hb', hd, hc2⟩
      · have e3 := t01 e1 e2
        rw [Order_of_validator_ne_zero c v a d had (by rw [e3]; decide), e3]
      · have e3 := t00 e1 e2
        have hbm : bm' = bm := Option.some.inj (hb'.symm.trans hb)
        subst hbm
        rw [Order_of_tie c v a d had e3, ha, hd]
        exact congrArg some (bytesCompare_trans am bm' dm hc1 hc2)

/-- C7, amended, applied: the validator that always answers `0` on three
records of equal version with payloads `[3]`, `[2]`, `[1]`. -/
theorem Order_trans_of_validator_witness :
    Order sampleCodec (constValidator 0) (sampleRecord 1 [3] []) (sampleRecord 1 [1] [])
      = some 1 :=
  Order_trans_of_validator sampleCodec (constValidator 0) (sampleRecord 1 [3] [])
    (sampleRecord 1 [2] []) (sampleRecord 1 [1] [])
    (by simp [ValidatorComposes, constValidator]) (by decide) (by decide)

/-- C8. On a record whose validator answers `(true, err)` with a non-nil
`err`, `IsValid` returns `ok = true` together with that error. -/
theorem IsValid_true_with_error :
    IsValid flaggedRecord = (true, some "clock unavailable") ∧
    (IsValid flaggedRecord).2 ≠ none ∧ (IsValid flaggedRecord).1 = true := by
  decide

/-! ## Required links and decoding -/

theorem linkFound_iff (n : String) (links : List Link) :
    linkFound n links = true ↔ ∃ l ∈ links, l.Name = n := by
  induction links with
  | nil => simp [linkFound]
  | cons l rest ih =>
    simp only [linkFound]
    split_ifs with h
    · simp [h]
    · simp [ih, h]

theorem linkFound_iff_HasLinkNamed (nd : Node) (n : String) :
    linkFound n nd.Links = true ↔ HasLinkNamed nd n :=
  linkFound_iff n nd.Links

theorem NodeHasRequiredLinks_eq_none_iff (nd : Node) (names : List String) :
    NodeHasRequiredLinks nd names = none ↔ ∀ n ∈ names, HasLinkNamed nd n := by
  induction names with
  | nil => simp [NodeHasRequiredLinks]
  | cons n rest ih =>
    simp only [NodeHasRequiredLinks]
    split_ifs with h
    · simp [ih, (linkFound_iff_HasLinkNamed nd n).mp h]
    · have hn : ¬ HasLinkNamed nd n := fun hh => h ((linkFound_iff_HasLinkNamed nd n).mpr hh)
      simp [hn]

theorem NodeHasRequiredLinks_eq_some_iff (nd : Node) (names : List String) (e : Error) :
    NodeHasRequiredLinks nd names = some e ↔
      ∃ pre n post, names = pre ++ n :: post ∧ (∀ m ∈ pre, HasLinkNamed nd m) ∧
        ¬ HasLinkNamed nd n ∧ e = missingLinkError n := by
  induction names with
  | nil => simp [NodeHasRequiredLinks]
  | cons x rest ih =>
    simp only [NodeHasRequiredLinks]
    split_ifs with h
    · have hx : HasLinkNamed nd x := (linkFound_iff_HasLinkNamed nd x).mp h
      rw [ih]
      constructor
      · rintro ⟨pre, n, post, hsplit, hpre, hn, he⟩
        refine ⟨x :: pre, n, post, by simp [hsplit], ?_, hn, he⟩
        intro m hm
        rcases List.mem_cons.mp hm with hm | hm
        · exact hm ▸ hx
        · exact hpre m hm
      · rintro ⟨pre, n, post, hsplit, hpre, hn, he⟩
        cases pre with
        | nil =>
          simp only [List.nil_append, List.cons.injEq] at hsplit
          exact absurd (hsplit.1 ▸ hx) hn
        | cons p pre' =>
          simp only [List.cons_append, List.cons.injEq] at hsplit
          exact ⟨pre', n, post, hsplit.2, fun m hm => hpre m (List.mem_cons_of_mem _ hm), hn, he⟩
    · have hx : ¬ HasLinkNamed nd x := fun hh => h ((linkFound_iff_HasLinkNamed nd x).mpr hh)
      constructor
      · intro he
        exact ⟨[], x, rest, rfl, by simp, hx, (Option.some.inj he).symm⟩
      · rintro ⟨pre, n, post, hsplit, hpre, hn, he⟩
        cases pre with
        | nil =>
          simp only [List.nil_append, List.cons.injEq] at hsplit
          rw [he, hsplit.1]
        | cons p pre' =>
          simp only [List.cons_append, List.cons.injEq] at hsplit
          exact absurd (hpre p (List.mem_cons_self _ _)) (hsplit.1 ▸ hx)

theorem NodeHasRequiredLinks_congr (nd nd' : Node) (names : List String)
    (h : ∀ n, HasLinkNamed nd n ↔ HasLinkNamed nd' n) :
    NodeHasRequiredLinks nd names = NodeHasRequiredLinks nd' names := by
  induction names with
  | nil => rfl
  | cons x rest ih =>
    have hx : linkFound x nd.Links = linkFound x nd'.Links := by
      rw [Bool.eq_iff_iff, linkFound_iff_HasLinkNamed, linkFound_iff_HasLinkNamed]
      exact h x
    simp only [NodeHasRequiredLinks, hx, ih]

/-- C9. `NodeHasRequiredLinks nd names` returns no error exactly when every
name of `names` is carried by a link of `nd`; it returns an error exactly when
`names` splits as `pre ++ n :: post` with every name of `pre` present and `n`
absent, and the error then names `n`; it returns no error for the empty list;
and two nodes whose links carry the same set of names get the same result. -/
theorem NodeHasRequiredLinks_spec (nd nd' : Node) (names : List String) :
    (NodeHasRequiredLinks nd names = none ↔ ∀ n ∈ names, HasLinkNamed nd n) ∧
    (∀ e, NodeHasRequiredLinks nd names = some e ↔
      ∃ pre n post, names = pre ++ n :: post ∧ (∀ m ∈ pre, HasLinkNamed nd m) ∧
        ¬ HasLinkNamed nd n ∧ e = missingLinkError n) ∧
    NodeHasRequiredLinks nd [] = none ∧
    ((∀ n, HasLinkNamed nd n ↔ HasLinkNamed nd' n) →
      NodeHasRequiredLinks nd names = NodeHasRequiredLinks nd' names) :=
  ⟨NodeHasRequiredLinks_eq_none_iff nd names,
   NodeHasRequiredLinks_eq_some_iff nd names,
   rfl,
   NodeHasRequiredLinks_congr nd nd' names⟩

/-- C9, applied: a node with links `value, @type` and a node with links
`@type, @type, value` get the same result for the names `@type, value, record`,
an error naming `record`. -/
theorem NodeHasRequiredLinks_spec_witness :
    NodeHasRequiredLinks ⟨[⟨"value", 0, [9]⟩, ⟨"@type", 0, [7]⟩], []⟩
        ["@type", "value", "record", "parent"]
      = NodeHasRequiredLinks ⟨[⟨"@type", 0, [7]⟩, ⟨"@type", 1, [8]⟩, ⟨"value", 0, [9]⟩], [1]⟩
        ["@type", "value", "record", "parent"] ∧
    NodeHasRequiredLinks ⟨[⟨"value", 0, [9]⟩, ⟨"@type", 0, [7]⟩], []⟩
        ["@type", "value", "record", "parent"]
      = some "invalid record. missing link: record" :=
  ⟨(NodeHasRequiredLinks_spec ⟨[⟨"value", 0, [9]⟩, ⟨"@type", 0, [7]⟩], []⟩
      ⟨[⟨"@type", 0, [7]⟩, ⟨"@type", 1, [8]⟩, ⟨"value", 0, [9]⟩], [1]⟩
      ["@type", "value", "record", "parent"]).2.2.2
      (by intro n; simp only [HasLinkNamed, List.mem_cons, List.mem_singleton,
            exists_eq_or_imp, exists_eq_left, List.not_mem_nil, false_and, exists_false,
            or_false]; tauto),
   by decide⟩

/-- C10. `unmarshalNode` returns a failure of the binary decode as is; on
bytes that decode to a node `nd` it fails with the error naming `@type` when
`nd` has no `@type` link, with the error naming `value` when `nd` has an
`@type` link and no `value` link, and it returns `nd` itself exactly when both
links are present. -/
theorem unmarshalNode_spec (c : DagCodec) (buf : Bytes) :
    (∀ e, c.Decoded buf = .error e → unmarshalNode c buf = .error e) ∧
    (∀ nd, c.Decoded buf = .ok nd →
      (¬ HasLinkNamed nd "@type" →
        unmarshalNode c buf = .error (missingLinkError "@type")) ∧
      (HasLinkNamed nd "@type" → ¬ HasLinkNamed nd "value" →
        unmarshalNode c buf = .error (missingLinkError "value")) ∧
      (unmarshalNode c buf = .ok nd ↔ HasLinkNamed nd "@type" ∧ HasLinkNamed nd "value") ∧
      (∀ nd', unmarshalNode c buf = .ok nd' → nd' = nd)) := by
  constructor
  · intro e he
    simp [unmarshalNode, he]
  · intro nd hnd
    have key : unmarshalNode c buf =
        if linkFound "@type" nd.Links then
          if linkFound "value" nd.Links then .ok nd
          else .error (missingLinkError "value")
        else .error (missingLinkError "@type") := by
      simp only [unmarshalNode, hnd, requiredLinks, linkType, linkValue, NodeHasRequiredLinks]
      split_ifs <;> rfl
    rw [key]
    simp only [← linkFound_iff_HasLinkNamed]
    refine ⟨?_, ?_, ?_, ?_⟩
    · intro h
      simp [h]
    · intro h1 h2
      simp [h1, h2]
    · split_ifs with h1 h2
      · simp [h1, h2]
      · simp [h1, h2]
      · simp [h1]
    · intro nd'
      split_ifs with h1 h2
      · intro h
        exact (Except.ok.inj h).symm
      · intro h
        exact absurd h (by simp)
      · intro h
        exact absurd h (by simp)

/-- C10, applied to the sample codec: an undecodable buffer, a node with only
a `value` link, a node with only an `@type` link, and a node with both. -/
theorem unmarshalNode_spec_witness :
    unmarshalNode sampleCodec [] = .error "unexpected EOF" ∧
    unmarshalNode sampleCodec [2, 5] = .error "invalid record. missing link: @type" ∧
    unmarshalNode sampleCodec [1, 5] = .error "invalid record. missing link: value" ∧
    unmarshalNode sampleCodec [3, 5]
      = .ok ⟨[⟨"value", 0, [9]⟩, ⟨"@type", 0, [7]⟩], [5]⟩ :=
  ⟨(unmarshalNode_spec sampleCodec []).1 "unexpected EOF" rfl,
   ((unmarshalNode_spec sampleCodec [2, 5]).2 ⟨[⟨"value", 0, [9]⟩], [5]⟩ rfl).1
      (by simp [HasLinkNamed]),
   ((unmarshalNode_spec sampleCodec [1, 5]).2 ⟨[⟨"@type", 0, [7]⟩], [5]⟩ rfl).2.1
      (by simp [HasLinkNamed]) (by simp [HasLinkNamed]),
   ((unmarshalNode_spec sampleCodec [3, 5]).2
      ⟨[⟨"value", 0, [9]⟩, ⟨"@type", 0, [7]⟩], [5]⟩ rfl).2.2.1.mpr
      ⟨by simp [HasLinkNamed], by simp [HasLinkNamed]⟩⟩

/-! ## Decoding by type -/

theorem unmarshalNode_of_links (c : DagCodec) (buf : Bytes) (nd : Node)
    (hdec : c.Decoded buf = .ok nd) (ht : HasLinkNamed nd "@type")
    (hv : HasLinkNamed nd "value") : unmarshalNode c buf = .ok nd := by
  have hreq : NodeHasRequiredLinks nd requiredLinks = none := by
    rw [NodeHasRequiredLinks_eq_none_iff]
    intro n hn
    simp only [requiredLinks, linkType, linkValue, List.mem_cons, List.mem_singleton,
      List.not_mem_nil, or_false] at hn
    rcases hn with rfl | rfl
    · exact ht
    · exact hv
  simp [unmarshalNode, hdec, hreq]

theorem GetNodeLink_of_HasLinkNamed (nd : Node) (n : String) (h : HasLinkNamed nd n) :
    ∃ tl, GetNodeLink nd n = .ok tl ∧ tl ∈ nd.Links ∧ tl.Name = n := by
  unfold GetNodeLink
  cases hf : nd.Links.find? (fun l => decide (l.Name = n)) with
  | none =>
    obtain ⟨l, hl, hn⟩ := h
    have := List.find?_eq_none.mp hf l hl
    simp [hn] at this
  | some tl =>
    refine ⟨tl, rfl, List.mem_of_find?_eq_some hf, ?_⟩
    simpa using List.find?_some hf

theorem nodeType_of_GetNodeLink (nd : Node) (tl : Link)
    (h : GetNodeLink nd "@type" = .ok tl) : nodeType nd = .ok tl.Hash := by
  simp [nodeType, linkType, h]

/-- C11. On bytes that decode to a node with an `@type` and a `value` link,
`UnmarshalFromSet` reads the hash of the node's `@type` link (the first link
of that name); it fails with the unsupported-type error for that hash when the
type set holds no type under it, and otherwise returns the result of `New` of
the type held under it, applied to the decoded node; the result is the same
for any type set that holds the same type under that one key. -/
theorem UnmarshalFromSet_dispatch (c : DagCodec) (pretty : Bytes → String) (h : Heap)
    (ts : TypeSet) (buf : Bytes) (nd : Node) (hdec : c.Decoded buf = .ok nd)
    (ht : HasLinkNamed nd "@type") (hv : HasLinkNamed nd "value") :
    ∃ tl, GetNodeLink nd "@type" = .ok tl ∧ tl ∈ nd.Links ∧ tl.Name = "@type" ∧
      (ts.Typ h tl.Hash = none →
        UnmarshalFromSet c pretty h ts buf = .error (unsupportedTypeError pretty tl.Hash)) ∧
      (∀ t, ts.Typ h tl.Hash = some t → UnmarshalFromSet c pretty h ts buf = t.New nd) ∧
      (∀ h' ts', TypeSet.Typ h' ts' tl.Hash = ts.Typ h tl.Hash →
        UnmarshalFromSet c pretty h' ts' buf = UnmarshalFromSet c pretty h ts buf) := by
  obtain ⟨tl, hget, hmem, hname⟩ := GetNodeLink_of_HasLinkNamed nd "@type" ht
  have hnode := unmarshalNode_of_links c buf nd hdec ht hv
  have hty := nodeType_of_GetNodeLink nd tl hget
  refine ⟨tl, hget, hmem, hname, ?_, ?_, ?_⟩
  · intro hnone
    simp [UnmarshalFromSet, hnode, hty, hnone]
  · intro t hsome
    simp [UnmarshalFromSet, hnode, hty, hsome]
  · intro h' ts' heq
    simp [UnmarshalFromSet, hnode, hty, heq]

/-- C11, applied: the payload `[1, 10]` under the sample type set, which holds
`payloadType` under the hash `[7]` of the `@type` link, and under a type set
that holds nothing. -/
theorem UnmarshalFromSet_dispatch_witness :
    UnmarshalFromSet linkedCodec (fun _ => "Qm") sampleHeap sampleTypeSet [1, 10]
      = .ok (payloadRecord 1 [10]).toRecordData ∧
    UnmarshalFromSet linkedCodec (fun _ => "Qm") sampleHeap nilTypeSet [1, 10]
      = .error "unsupported record type Qm" := by
  constructor
  · obtain ⟨tl, hget, _, _, _, hsome, _⟩ :=
      UnmarshalFromSet_dispatch linkedCodec (fun _ => "Qm") sampleHeap sampleTypeSet [1, 10]
        ⟨[⟨"@type", 0, [7]⟩, ⟨"value", 0, [9]⟩], [1, 10]⟩ rfl
        (by simp [HasLinkNamed]) (by simp [HasLinkNamed])
    have htl : (⟨"@type", 0, [7]⟩ : Link) = tl := Except.ok.inj hget
    subst htl
    exact hsome payloadType rfl
  · obtain ⟨tl, hget, _, _, hnone, _, _⟩ :=
      UnmarshalFromSet_dispatch linkedCodec (fun _ => "Qm") sampleHeap nilTypeSet [1, 10]
        ⟨[⟨"@type", 0, [7]⟩, ⟨"value", 0, [9]⟩], [1, 10]⟩ rfl
        (by simp [HasLinkNamed]) (by simp [HasLinkNamed])
    have htl : (⟨"@type", 0, [7]⟩ : Link) = tl := Except.ok.inj hget
    subst htl
    exact hnone rfl

/-- C12. On bytes that decode to a node with an `@type` and a `value` link,
`UnmarshalType` compares the hash of the node's `@type` link with the hash of
the type's node: when they differ it fails with the type-mismatch error,
whatever the type's `New` is, and when they are equal it returns `t.New` of
the decoded node. -/
theorem UnmarshalType_checks_type (c : DagCodec) (hash : Node → Bytes) (t : RType)
    (buf : Bytes) (nd : Node) (hdec : c.Decoded buf = .ok nd)
    (ht : HasLinkNamed nd "@type") (hv : HasLinkNamed nd "value") :
    ∃ tl, GetNodeLink nd "@type" = .ok tl ∧ tl ∈ nd.Links ∧ tl.Name = "@type" ∧
      (tl.Hash ≠ hash t.Node →
        UnmarshalType c hash t buf = .error "record type mismatch" ∧
        ∀ new, UnmarshalType c hash ⟨t.Node, t.Validator, new⟩ buf
          = .error "record type mismatch") ∧
      (tl.Hash = hash t.Node → UnmarshalType c hash t buf = t.New nd) := by
  obtain ⟨tl, hget, hmem, hname⟩ := GetNodeLink_of_HasLinkNamed nd "@type" ht
  have hnode := unmarshalNode_of_links c buf nd hdec ht hv
  have hty := nodeType_of_GetNodeLink nd tl hget
  refine ⟨tl, hget, hmem, hname, ?_, ?_⟩
  · intro hne
    constructor
    · simp [UnmarshalType, unmarshalTypeNode, NodeHasType, hnode, hty, hne]
    · intro new
      simp [UnmarshalType, unmarshalTypeNode, NodeHasType, hnode, hty, hne]
  · intro heq
    simp [UnmarshalType, unmarshalTypeNode, NodeHasType, hnode, hty, heq]

/-- C12, applied with the payload of a node as its hash: `payloadType`, whose
node hashes to `[42]`, against a node whose `@type` link holds `[7]`, and a
type whose node hashes to `[7]`. -/
theorem UnmarshalType_checks_type_witness :
    UnmarshalType linkedCodec sampleHash payloadType [1, 10]
      = .error "record type mismatch" ∧
    UnmarshalType linkedCodec sampleHash ⟨⟨[], [7]⟩, constValidator 0, payloadType.New⟩
        [1, 10]
      = .ok (payloadRecord 1 [10]).toRecordData := by
  constructor
  · obtain ⟨tl, hget, _, _, hne, _⟩ :=
      UnmarshalType_checks_type linkedCodec sampleHash payloadType [1, 10]
        ⟨[⟨"@type", 0, [7]⟩, ⟨"value", 0, [9]⟩], [1, 10]⟩ rfl
        (by simp [HasLinkNamed]) (by simp [HasLinkNamed])
    have htl : (⟨"@type", 0, [7]⟩ : Link) = tl := Except.ok.inj hget
    subst htl
    exact (hne (by decide)).1
  · obtain ⟨tl, hget, _, _, _, heq⟩ :=
      UnmarshalType_checks_type linkedCodec sampleHash
        ⟨⟨[], [7]⟩, constValidator 0, payloadType.New⟩ [1, 10]
        ⟨[⟨"@type", 0, [7]⟩, ⟨"value", 0, [9]⟩], [1, 10]⟩ rfl
        (by simp [HasLinkNamed]) (by simp [HasLinkNamed])
    have htl : (⟨"@type", 0, [7]⟩ : Link) = tl := Except.ok.inj hget
    subst htl
    exact heq rfl

/-! ## The chain record type -/

theorem chainNew_ok_rd (p : ProtoLib) (nd : Node) (r : ChainRecord)
    (h : chainNew p nd = some (.ok r)) : r = ⟨none, nd⟩ := by
  unfold chainNew at h
  cases hc : NodeHasRequiredLinks nd [parentLink, recordLink] with
  | some err => simp [hc] at h
  | none =>
    simp only [hc] at h
    cases hu : p.Unmarshal nd.Data none with
    | none => simp [hu] at h
    | some oe =>
      cases oe with
      | some err => simp [hu] at h
      | none =>
        simp only [hu, Option.some.injEq, Except.ok.injEq] at h
        exact h.symm

/-- C13. `chainType.New` hands back the nil `rd` it declared: on the sample
chain node, with a protobuf library that reports no error, the record it
returns has `rd = nil`, so `Version`, `Validity` and `Value` panic on it; and
for every library and node, a record `New` returns is that one. -/
theorem chainNew_rd_nil :
    chainNew sampleProto sampleChainNode = some (.ok ⟨none, sampleChainNode⟩) ∧
    ChainRecord.Version ⟨none, sampleChainNode⟩ = none ∧
    ChainRecord.Validity ⟨none, sampleChainNode⟩ = none ∧
    ChainRecord.Value ⟨none, sampleChainNode⟩ = none ∧
    (∀ p nd r, chainNew p nd = some (.ok r) →
      r.Version = none ∧ r.Validity = none ∧ r.Value = none) := by
  refine ⟨rfl, rfl, rfl, rfl, ?_⟩
  intro p nd r h
  rw [chainNew_ok_rd p nd r h]
  exact ⟨rfl, rfl, rfl⟩

theorem HasLinkNamed_iff_linkCount (nd : Node) (n : String) :
    HasLinkNamed nd n ↔ 1 ≤ linkCount nd n := by
  unfold HasLinkNamed linkCount
  rw [Nat.succ_le_iff, List.length_pos_iff_exists_mem]
  constructor
  · rintro ⟨l, hl, hn⟩
    exact ⟨l, List.mem_filter.mpr ⟨hl, by simp [hn]⟩⟩
  · rintro ⟨l, hl⟩
    rw [List.mem_filter] at hl
    exact ⟨l, hl.1, by simpa using hl.2⟩

theorem chainNew_link_check_eq (nd : Node) :
    NodeHasRequiredLinks nd [parentLink, recordLink] =
      if linkFound "parent" nd.Links then
        if linkFound "record" nd.Links then none
        else some (missingLinkError "record")
      else some (missingLinkError "parent") := by
  simp only [NodeHasRequiredLinks, parentLink, recordLink]

/-- C18, as stated, fails: a node with one `record` link and no `parent` link
is rejected with the error naming `parent`, and a node with a `parent` link
and two `record` links passes the check. -/
theorem chainNew_link_check_counterexample :
    linkCount ⟨[⟨"record", 0, [3]⟩], []⟩ "record" = 1 ∧
    linkCount ⟨[⟨"record", 0, [3]⟩], []⟩ "parent" = 0 ∧
    NodeHasRequiredLinks ⟨[⟨"record", 0, [3]⟩], []⟩ [parentLink, recordLink]
      = some "invalid record. missing link: parent" ∧
    chainNew sampleProto ⟨[⟨"record", 0, [3]⟩], []⟩
      = some (.error "invalid record. missing link: parent") ∧
    linkCount ⟨[⟨"parent", 0, [1]⟩, ⟨"record", 0, [3]⟩, ⟨"record", 0, [4]⟩], []⟩ "record"
      = 2 ∧
    NodeHasRequiredLinks ⟨[⟨"parent", 0, [1]⟩, ⟨"record", 0, [3]⟩, ⟨"record", 0, [4]⟩], []⟩
      [parentLink, recordLink] = none := by
  refine ⟨by decide, by decide, by decide, rfl, by decide, by decide⟩

/-- C18, amended. The link check of `chainType.New` succeeds exactly when the
node carries at least one `parent` link and at least one `record` link; `New`
fails with the error naming `parent` on a node without a `parent` link, and
with the error naming `record` on a node with a `parent` link and no `record`
link. -/
theorem chainNew_link_check (p : ProtoLib) (nd : Node) :
    (NodeHasRequiredLinks nd [parentLink, recordLink] = none ↔
      1 ≤ linkCount nd "parent" ∧ 1 ≤ linkCount nd "record") ∧
    (linkCount nd "parent" = 0 →
      chainNew p nd = some (.error (missingLinkError "parent"))) ∧
    (1 ≤ linkCount nd "parent" → linkCount nd "record" = 0 →
      chainNew p nd = some (.error (missingLinkError "record"))) := by
  have hp := linkFound_iff_HasLinkNamed nd "parent"
  have hr := linkFound_iff_HasLinkNamed nd "record"
  rw [HasLinkNamed_iff_linkCount] at hp hr
  refine ⟨?_, ?_, ?_⟩
  · rw [chainNew_link_check_eq, ← hp, ← hr]
    split_ifs with h1 h2
    · simp [h1, h2]
    · simp [h1, h2]
    · simp [h1]
  · intro h0
    have h1 : ¬ linkFound "parent" nd.Links = true := by
      rw [hp]
      omega
    simp [chainNew, chainNew_link_check_eq, h1]
  · intro h1 h0
    have h2 : ¬ linkFound "record" nd.Links = true := by
      rw [hr]
      omega
    simp [chainNew, chainNew_link_check_eq, hp.mpr h1, h2]

/-- C18, amended, applied: a node with only a `record` link, and a node with
a `parent` link and no `record` link. -/
theorem chainNew_link_check_witness :
    chainNew sampleProto ⟨[⟨"record", 0, [3]⟩], []⟩
      = some (.error "invalid record. missing link: parent") ∧
    chainNew sampleProto ⟨[⟨"parent", 0, [1]⟩], []⟩
      = some (.error "invalid record. missing link: record") :=
  ⟨(chainNew_link_check sampleProto ⟨[⟨"record", 0, [3]⟩], []⟩).2.1 (by decide),
   (chainNew_link_check sampleProto ⟨[⟨"parent", 0, [1]⟩], []⟩).2.2 (by decide) (by decide)⟩

theorem parentsLoop_of_resolve (resolve : Link → Except Error Node) (p : ChainRecord)
    (links : List Link) (acc : List ChainRecord)
    (h : ∀ l ∈ links, l.Name = parentLink → ∃ n, resolve l = .ok n) :
    parentsLoop resolve p links acc
      = .ok (acc ++ List.replicate (parentLinksOf links).length p) := by
  induction links generalizing acc with
  | nil => simp [parentsLoop, parentLinksOf]
  | cons l rest ih =>
    have hrest : ∀ l' ∈ rest, l'.Name = parentLink → ∃ n, resolve l' = .ok n :=
      fun l' hl' => h l' (List.mem_cons_of_mem _ hl')
    by_cases hn : l.Name = parentLink
    · obtain ⟨n, hres⟩ := h l (List.mem_cons_self _ _) hn
      simp only [parentsLoop, hn, if_true, hres]
      rw [ih _ hrest]
      simp [parentLinksOf, hn, List.replicate_succ]
    · simp only [parentsLoop, hn, if_false]
      rw [ih _ hrest]
      simp [parentLinksOf, hn]

theorem Parents_of_resolve (resolve : Link → Except Error Node) (p r : ChainRecord)
    (h : ∀ l ∈ r.nd.Links, l.Name = parentLink → ∃ n, resolve l = .ok n) :
    ChainRecord.Parents resolve p r = none := by
  simp [ChainRecord.Parents, parentsLoop_of_resolve resolve p r.nd.Links [] h]

/-- C19. `Record.Parents` returns no list of parents: on the sample chain
node, whose two `parent` links both resolve, the loop gathers two copies of
the undeclared `p` and the body ends without returning them; the same holds
for every record whose `parent` links all resolve. A `parent` link that fails
to resolve does return its error. -/
theorem Parents_returns_no_records :
    ChainRecord.Parents sampleResolve ⟨none, ⟨[], []⟩⟩ ⟨none, sampleChainNode⟩ = none ∧
    parentsLoop sampleResolve ⟨none, ⟨[], []⟩⟩ sampleChainNode.Links []
      = .ok [⟨none, ⟨[], []⟩⟩, ⟨none, ⟨[], []⟩⟩] ∧
    ChainRecord.Parents sampleResolve ⟨none, ⟨[], []⟩⟩
        ⟨none, ⟨[⟨"parent", 0, [1]⟩, ⟨"parent", 0, [0]⟩, ⟨"record", 0, [3]⟩], []⟩⟩
      = some (.error "merkledag: not found") ∧
    (∀ resolve p r, (∀ l ∈ r.nd.Links, l.Name = parentLink → ∃ n, resolve l = .ok n) →
      ChainRecord.Parents resolve p r = none) :=
  ⟨rfl, rfl, rfl, Parents_of_resolve⟩

/-! ## The type registry -/

theorem foldl_insert_lookup (l : List (Sigma fun _ : Bytes => RType)) (hl : l.NodupKeys)
    (acc : TypeMap) (k : Bytes) :
    (l.foldl (fun a e => a.insert e.1 e.2) acc).lookup k
      = (List.dlookup k l).orElse fun _ => acc.lookup k := by
  induction l generalizing acc with
  | nil => simp
  | cons e rest ih =>
    obtain ⟨ek, ev⟩ := e
    rw [List.nodupKeys_cons] at hl
    rw [List.foldl_cons, ih hl.2]
    by_cases hk : k = ek
    · subst hk
      have hnone : List.dlookup k rest = none := List.dlookup_eq_none.mpr hl.1
      simp [hnone, List.dlookup_cons_eq]
    · rw [List.dlookup_cons_ne _ _ hk, AList.lookup_insert_ne hk]

theorem mapAssign_last (pre : List TypeMap) (acc : TypeMap) (k : Bytes) (v : RType) :
    mapAssign ⟨pre ++ [acc]⟩ pre.length k v = ⟨pre ++ [acc.insert k v]⟩ := by
  simp [mapAssign, List.set_append]

theorem foldl_mapAssign_last (pre : List TypeMap) (es : List (Bytes × RType))
    (acc : TypeMap) :
    es.foldl (fun hh kv => mapAssign hh pre.length kv.1 kv.2) ⟨pre ++ [acc]⟩
      = ⟨pre ++ [es.foldl (fun a kv => a.insert kv.1 kv.2) acc]⟩ := by
  induction es generalizing acc with
  | nil => rfl
  | cons e rest ih =>
    rw [List.foldl_cons, mapAssign_last, ih, List.foldl_cons]

/-- The map object that `Types` fills: the pairs of the registry's map put
into an empty map one after the other. -/
theorem Types_eq (h : Heap) (ts : TypeSet) :
    ts.Types h
      = (⟨h.maps ++ [(mapEntries h ts.types).foldl (fun a kv => a.insert kv.1 kv.2) ∅]⟩,
          some h.maps.length) := by
  simp only [TypeSet.Types]
  rw [foldl_mapAssign_last]

theorem copy_lookup (h : Heap) (m : MapRef) (k : Bytes) :
    ((mapEntries h m).foldl (fun a kv => a.insert kv.1 kv.2) (∅ : TypeMap)).lookup k
      = mapIndex h m k := by
  cases m with
  | none => simp [mapEntries, mapIndex]
  | some i =>
    cases hi : h.maps[i]? with
    | none => simp [mapEntries, mapIndex, hi]
    | some tm =>
      simp only [mapEntries, mapIndex, hi, List.foldl_map]
      rw [foldl_insert_lookup tm.entries tm.nodupKeys]
      simp only [AList.lookup_empty]
      cases hd : List.dlookup k tm.entries <;> simp [AList.lookup, hd]

theorem mapIndex_append_fresh (maps : List TypeMap) (tm : TypeMap) (k : Bytes) :
    mapIndex ⟨maps ++ [tm]⟩ (some maps.length) k = tm.lookup k := by
  simp [mapIndex]

theorem mapIndex_append_old (maps : List TypeMap) (tm : TypeMap) (i : Nat) (k : Bytes)
    (hi : i < maps.length) :
    mapIndex ⟨maps ++ [tm]⟩ (some i) k = mapIndex ⟨maps⟩ (some i) k := by
  simp [mapIndex, List.getElem?_append_left hi]

theorem mapAssign_append_old (maps : List TypeMap) (tm : TypeMap) (i : Nat) (k : Bytes)
    (v : RType) (hi : i < maps.length) :
    mapAssign ⟨maps ++ [tm]⟩ i k v = ⟨(mapAssign ⟨maps⟩ i k v).maps ++ [tm]⟩ := by
  have hget : (maps ++ [tm])[i]? = maps[i]? := List.getElem?_append_left hi
  simp only [mapAssign, hget]
  cases hm : maps[i]? with
  | none => rfl
  | some old => simp [List.set_append, hi]

theorem mapAssign_length (h : Heap) (i : Nat) (k : Bytes) (v : RType) :
    (mapAssign h i k v).maps.length = h.maps.length := by
  unfold mapAssign
  cases h.maps[i]? <;> simp

theorem mapIndex_mapAssign_self (h : Heap) (i : Nat) (k : Bytes) (v : RType)
    (hi : i < h.maps.length) : mapIndex (mapAssign h i k v) (some i) k = some v := by
  have hsome : h.maps[i]? = some (h.maps[i]) := List.getElem?_eq_getElem hi
  simp [mapIndex, mapAssign, hsome, List.getElem?_set, hi]

/-- C14. In a heap where the registry's map is allocated: `Type` returns nil
on a registry whose map was never initialised and otherwise the entry of the
registry's map at the key, nil for a key the map does not hold; `Types`
returns a map whose entry at every key is what `Type` returns, and leaves the
registry as it was; an assignment `ts.types[k] = t` made after the call
registers `t` in the registry and leaves every entry of the returned map as it
was. -/
theorem TypeSet_lookup_and_snapshot (h : Heap) (ts : TypeSet)
    (hwf : ∀ i, ts.types = some i → i < h.maps.length) :
    (ts.types = none → ∀ k, ts.Typ h k = none) ∧
    (∀ i tm, ts.types = some i → h.maps[i]? = some tm →
      ∀ k, ts.Typ h k = tm.lookup k ∧ (k ∉ tm → ts.Typ h k = none)) ∧
    (∀ k, mapIndex (ts.Types h).1 (ts.Types h).2 k = ts.Typ h k) ∧
    (∀ k, ts.Typ (ts.Types h).1 k = ts.Typ h k) ∧
    (∀ i k' t, ts.types = some i →
      ts.Typ (mapAssign (ts.Types h).1 i k' t) k' = some t ∧
      ∀ k, mapIndex (mapAssign (ts.Types h).1 i k' t) (ts.Types h).2 k = ts.Typ h k) := by
  refine ⟨?_, ?_, ?_, ?_, ?_⟩
  · intro hnil k
    simp [TypeSet.Typ, mapIndex, hnil]
  · intro i tm hi htm k
    have hk : ts.Typ h k = tm.lookup k := by simp [TypeSet.Typ, mapIndex, hi, htm]
    exact ⟨hk, fun hnot => hk.trans (AList.lookup_eq_none.mpr hnot)⟩
  · intro k
    rw [Types_eq]
    simp only []
    rw [mapIndex_append_fresh, copy_lookup]
    rfl
  · intro k
    rw [Types_eq]
    simp only [TypeSet.Typ]
    cases hts : ts.types with
    | none => rfl
    | some i => exact mapIndex_append_old h.maps _ i k (hwf i hts)
  · intro i k' t hts
    have hi := hwf i hts
    rw [Types_eq]
    simp only []
    rw [mapAssign_append_old h.maps _ i k' t hi]
    constructor
    · simp only [TypeSet.Typ, hts]
      rw [mapIndex_append_old _ _ i k' (by rw [mapAssign_length]; exact hi)]
      exact mapIndex_mapAssign_self h i k' t hi
    · intro k
      have hlen : h.maps.length = (mapAssign ⟨h.maps⟩ i k' t).maps.length :=
        (mapAssign_length ⟨h.maps⟩ i k' t).symm
      rw [hlen, mapIndex_append_fresh, copy_lookup]
      rfl

/-- C14, applied to the sample registry, which holds `payloadType` under
`[7]`: the snapshot holds it too, at `[8]` it holds nothing, and it still
holds nothing at `[8]` after a type is registered under `[8]`. -/
theorem TypeSet_lookup_and_snapshot_witness :
    mapIndex (sampleTypeSet.Types sampleHeap).1 (sampleTypeSet.Types sampleHeap).2 [7]
      = sampleTypeSet.Typ sampleHeap [7] ∧
    sampleTypeSet.Typ (mapAssign (sampleTypeSet.Types sampleHeap).1 0 [8] payloadType) [8]
      = some payloadType ∧
    mapIndex (mapAssign (sampleTypeSet.Types sampleHeap).1 0 [8] payloadType)
        (sampleTypeSet.Types sampleHeap).2 [8]
      = sampleTypeSet.Typ sampleHeap [8] :=
  ⟨(TypeSet_lookup_and_snapshot sampleHeap sampleTypeSet
      (fun i hi => by cases hi; decide)).2.2.1 [7],
   ((TypeSet_lookup_and_snapshot sampleHeap sampleTypeSet
      (fun i hi => by cases hi; decide)).2.2.2.2 0 [8] payloadType rfl).1,
   ((TypeSet_lookup_and_snapshot sampleHeap sampleTypeSet
      (fun i hi => by cases hi; decide)).2.2.2.2 0 [8] payloadType rfl).2 [8]⟩

/-! ## The datastore-backed store -/

theorem mapDatastore_GetAfterPut : mapDatastore.GetAfterPut := by
  intro st st' k v h
  simp only [mapDatastore, Prod.mk.injEq, and_true] at h
  subst h
  simp [mapDatastore]

theorem mapDatastore_Lawful : mapDatastore.Lawful (fun st => st) where
  put_ok := by
    intro st st' k v h k'
    simp only [mapDatastore, Prod.mk.injEq, and_true] at h
    subst h
    rfl
  get_some := by
    intro st k v h
    simp [mapDatastore, h]
  get_none := by
    intro st k h
    exact ⟨"datastore: key not found", by simp [mapDatastore, h]⟩

theorem Lawful_GetAfterPut {σ : Type} (d : Datastore σ) (contents : σ → Key → Option Bytes)
    (hlaw : d.Lawful contents) : d.GetAfterPut := by
  intro st st' k v h
  apply hlaw.get_some
  rw [hlaw.put_ok st st' k v h k]
  simp

theorem Store_Put_ok {σ : Type} (e : StoreEnv) (s : Store σ) (st st' : σ) (p : Path)
    (r : Record) (hput : Store.Put e s st p r = (st', none)) :
    ∃ m, Marshal e.codec r = .ok m ∧ s.ds.Put st (e.NewKey p) m = (st', none) := by
  unfold Store.Put at hput
  cases hm : Marshal e.codec r with
  | error err => simp [hm] at hput
  | ok m =>
    simp only [hm] at hput
    exact ⟨m, rfl, hput⟩

theorem Store_Get_after_Put {σ : Type} (e : StoreEnv) (s : Store σ) (st st' : σ) (p : Path)
    (r : Record) (hlaw : s.ds.GetAfterPut) (hput : Store.Put e s st p r = (st', none)) :
    ∃ m, Marshal e.codec r = .ok m ∧
      Store.Get e s st' p = UnmarshalFromSet e.codec e.pretty e.heap s.ts m := by
  obtain ⟨m, hm, hds⟩ := Store_Put_ok e s st st' p r hput
  refine ⟨m, hm, ?_⟩
  simp [Store.Get, hlaw st st' (e.NewKey p) m hds, TypeSet.Unmarshal]

theorem HasLinkNamed_of_GetNodeLink (nd : Node) (n : String) (tl : Link)
    (h : GetNodeLink nd n = .ok tl) : HasLinkNamed nd n := by
  unfold GetNodeLink at h
  cases hf : nd.Links.find? (fun l => decide (l.Name = n)) with
  | none => simp [hf] at h
  | some l => exact ⟨l, List.mem_of_find?_eq_some hf, by simpa using List.find?_some hf⟩

/-- The decoding of the encoding of a record gives the record back when the
decoder returns the node of the record, the node carries a `value` link and an
`@type` link, and the type set holds under the hash of that link a type whose
`New` rebuilds the record from the node. -/
theorem UnmarshalFromSet_of_record (c : DagCodec) (pretty : Bytes → String) (h : Heap)
    (ts : TypeSet) (r : Record) (m : Bytes) (t : RType) (tl : Link)
    (hdec : c.Decoded m = .ok r.Node) (hv : HasLinkNamed r.Node "value")
    (hget : GetNodeLink r.Node "@type" = .ok tl) (hreg : ts.Typ h tl.Hash = some t)
    (hnew : t.New r.Node = .ok r.toRecordData) :
    UnmarshalFromSet c pretty h ts m = .ok r.toRecordData := by
  have ht := HasLinkNamed_of_GetNodeLink r.Node "@type" tl hget
  have hnode := unmarshalNode_of_links c m r.Node hdec ht hv
  have hty := nodeType_of_GetNodeLink r.Node tl hget
  simp [UnmarshalFromSet, hnode, hty, hreg, hnew]

theorem Store_Put_contents_other {σ : Type} (e : StoreEnv) (s : Store σ)
    (contents : σ → Key → Option Bytes) (hlaw : s.ds.Lawful contents) (st st' : σ)
    (q : Path) (r : Record) (k : Key) (hput : Store.Put e s st q r = (st', none))
    (hk : e.NewKey q ≠ k) : contents st' k = contents st k := by
  obtain ⟨m, _, hds⟩ := Store_Put_ok e s st st' q r hput
  rw [hlaw.put_ok st st' (e.NewKey q) m hds k]
  simp [Ne.symm hk]

theorem putEach_contents_other {σ : Type} (e : StoreEnv) (s : Store σ)
    (contents : σ → Key → Option Bytes) (hlaw : s.ds.Lawful contents) (k : Key)
    (ops : List (Path × Record)) (st0 st : σ) (hput : putEach e s st0 ops = some st)
    (hops : ∀ op ∈ ops, e.NewKey op.1 ≠ k) : contents st k = contents st0 k := by
  induction ops generalizing st0 with
  | nil =>
    simp only [putEach, Option.some.injEq] at hput
    rw [hput]
  | cons op rest ih =>
    simp only [putEach] at hput
    rcases hp : Store.Put e s st0 op.1 op.2 with ⟨st1, _ | err⟩
    · rw [hp] at hput
      simp only [] at hput
      rw [ih st1 hput (fun o ho => hops o (List.mem_cons_of_mem _ ho))]
      exact Store_Put_contents_other e s contents hlaw st0 st1 op.1 op.2 k hp
        (hops op (List.mem_cons_self _ _))
    · rw [hp] at hput
      simp at hput

theorem Store_Get_of_no_value {σ : Type} (e : StoreEnv) (s : Store σ)
    (contents : σ → Key → Option Bytes) (hlaw : s.ds.Lawful contents) (st : σ) (p : Path)
    (h : contents st (e.NewKey p) = none) :
    ∃ err, s.ds.Get st (e.NewKey p) = .error err ∧ Store.Get e s st p = .error err := by
  obtain ⟨err, herr⟩ := hlaw.get_none st (e.NewKey p) h
  exact ⟨err, herr, by simp [Store.Get, herr]⟩

/-- C15, as stated, fails: `Get` after `Put` of `r1` need not return `r1`. On
the empty backend, with a type set that holds no type, `Put` of a record
returns no error and `Get` then fails with the unsupported-type error; with a
type set whose type for the record has a constructor that gives version `0`,
`Get` after `Put` of a record of version `1` returns a record of version
`0`. -/
theorem Store_Put_Get_counterexample :
    (Store.Put sampleEnv untypedStore emptyBackend "/a" (payloadRecord 1 [10])).2 = none ∧
    Store.Get sampleEnv untypedStore
        (Store.Put sampleEnv untypedStore emptyBackend "/a" (payloadRecord 1 [10])).1 "/a"
      = .error "unsupported record type Qm" ∧
    (Store.Put lossyEnv sampleStore emptyBackend "/a" (sampleRecord 1 [5] [])).2 = none ∧
    Store.Get lossyEnv sampleStore
        (Store.Put lossyEnv sampleStore emptyBackend "/a" (sampleRecord 1 [5] [])).1 "/a"
      = .ok ⟨⟨[⟨"@type", 0, [7]⟩, ⟨"value", 0, [9]⟩], [5]⟩, 0, [], [5]⟩ ∧
    (sampleRecord 1 [5] []).Version = 1 :=
  ⟨rfl, rfl, rfl, rfl, rfl⟩

/-- C15, amended. Over a key/value datastore that keeps its contract: after a
`Put` of `r` at `p` that returns no error, the datastore holds `Marshal r` at
the key of `p` and `Get` at `p` returns `UnmarshalFromSet` of the type set on
these bytes; `Get` then returns `r` itself when the decoder returns the node of
`r` from these bytes, the node carries a `value` link and an `@type` link, and
the type set holds under the hash of that link a type whose `New` rebuilds `r`
from the node; when `Marshal r` fails, `Put` returns that error and the state
of the datastore is the one before; at a path whose key holds no value, and so
at a path whose key no `Put` since the empty backend has written, `Get` returns
the error of the datastore. -/
theorem Store_Put_Get {σ : Type} (e : StoreEnv) (s : Store σ)
    (contents : σ → Key → Option Bytes) (st : σ) (p : Path) (r : Record)
    (hlaw : s.ds.Lawful contents) :
    (∀ st', Store.Put e s st p r = (st', none) →
      ∃ m, Marshal e.codec r = .ok m ∧ contents st' (e.NewKey p) = some m ∧
        Store.Get e s st' p = UnmarshalFromSet e.codec e.pretty e.heap s.ts m) ∧
    (∀ st' m t tl, Store.Put e s st p r = (st', none) → Marshal e.codec r = .ok m →
      e.codec.Decoded m = .ok r.Node → HasLinkNamed r.Node "value" →
      GetNodeLink r.Node "@type" = .ok tl → s.ts.Typ e.heap tl.Hash = some t →
      t.New r.Node = .ok r.toRecordData →
      Store.Get e s st' p = .ok r.toRecordData) ∧
    (∀ err, Marshal e.codec r = .error err → Store.Put e s st p r = (st, some err)) ∧
    (contents st (e.NewKey p) = none →
      ∃ err, s.ds.Get st (e.NewKey p) = .error err ∧ Store.Get e s st p = .error err) ∧
    (∀ st0 ops, (∀ k, contents st0 k = none) → putEach e s st0 ops = some st →
      (∀ op ∈ ops, e.NewKey op.1 ≠ e.NewKey p) →
      ∃ err, s.ds.Get st (e.NewKey p) = .error err ∧ Store.Get e s st p = .error err) := by
  have hgap := Lawful_GetAfterPut s.ds contents hlaw
  refine ⟨?_, ?_, ?_, ?_, ?_⟩
  · intro st' hput
    obtain ⟨m, hm, hget⟩ := Store_Get_after_Put e s st st' p r hgap hput
    obtain ⟨m', hm', hds⟩ := Store_Put_ok e s st st' p r hput
    have hmm : m' = m := Except.ok.inj (hm'.symm.trans hm)
    subst hmm
    refine ⟨m', hm, ?_, hget⟩
    rw [hlaw.put_ok st st' (e.NewKey p) m' hds (e.NewKey p)]
    simp
  · intro st' m t tl hput hm hdec hv hget hreg hnew
    obtain ⟨m', hm', hres⟩ := Store_Get_after_Put e s st st' p r hgap hput
    have hmm : m' = m := Except.ok.inj (hm'.symm.trans hm)
    subst hmm
    rw [hres]
    exact UnmarshalFromSet_of_record e.codec e.pretty e.heap s.ts r m' t tl hdec hv hget
      hreg hnew
  · intro err herr
    simp [Store.Put, herr]
  · exact Store_Get_of_no_value e s contents hlaw st p
  · intro st0 ops hempty hput hops
    apply Store_Get_of_no_value e s contents hlaw st p
    rw [putEach_contents_other e s contents hlaw (e.NewKey p) ops st0 st hput hops]
    exact hempty _

/-- C15, amended, applied to the sample store on the empty backend: `Get`
after `Put` of a record of `payloadType` returns the record, and `Get` at `/a`
after a `Put` at `/b` returns the error of the datastore. -/
theorem Store_Put_Get_witness :
    Store.Get sampleEnv sampleStore
        (Store.Put sampleEnv sampleStore emptyBackend "/a" (payloadRecord 1 [10])).1 "/a"
      = .ok (payloadRecord 1 [10]).toRecordData ∧
    (∃ err, mapDatastore.Get
        (Store.Put sampleEnv sampleStore emptyBackend "/b" (payloadRecord 1 [10])).1 "/a"
        = .error err ∧
      Store.Get sampleEnv sampleStore
        (Store.Put sampleEnv sampleStore emptyBackend "/b" (payloadRecord 1 [10])).1 "/a"
        = .error err) :=
  ⟨(Store_Put_Get sampleEnv sampleStore (fun st => st) emptyBackend "/a"
      (payloadRecord 1 [10]) mapDatastore_Lawful).2.1 _ [1, 10] payloadType
      ⟨"@type", 0, [7]⟩ rfl rfl rfl (by simp [HasLinkNamed, payloadRecord]) rfl rfl rfl,
   (Store_Put_Get sampleEnv sampleStore (fun st => st)
      (Store.Put sampleEnv sampleStore emptyBackend "/b" (payloadRecord 1 [10])).1 "/a"
      (payloadRecord 1 [10]) mapDatastore_Lawful).2.2.2.2 emptyBackend
      [("/b", payloadRecord 1 [10])] (fun _ => rfl) rfl
      (by intro op hop; rw [List.mem_singleton.mp hop]; decide)⟩

/-- C16. On the empty backend, `Put` of a record of version 2 followed by
`Put` of a record of version 1 at the same path makes `Get` return the record
of version 1, which `Order` puts below the record of version 2 for every
validator; with the two `Put` in the other order `Get` returns the record of
version 2. -/
theorem Store_Get_not_best :
    (putAll sampleEnv sampleStore "/a" emptyBackend
        [payloadRecord 2 [10], payloadRecord 1 [10]]).map
        (fun st => Store.Get sampleEnv sampleStore st "/a")
      = some (.ok (payloadRecord 1 [10]).toRecordData) ∧
    (∀ v, Order sampleEnv.codec v (payloadRecord 1 [10]) (payloadRecord 2 [10])
      = some (-1)) ∧
    (putAll sampleEnv sampleStore "/a" emptyBackend
        [payloadRecord 1 [10], payloadRecord 2 [10]]).map
        (fun st => Store.Get sampleEnv sampleStore st "/a")
      = some (.ok (payloadRecord 2 [10]).toRecordData) :=
  ⟨rfl, fun v => Order_of_version_lt sampleEnv.codec v _ _ (by decide), rfl⟩

/-- C17. When `Get` returns the record `r`, `GetChan` returns a closed channel
whose buffer holds exactly `r`: a receive gives `r`, and the next receive
finds the buffer empty on the closed channel; when `Get` fails, `GetChan`
returns that error and no channel. -/
theorem GetChan_single_shot {σ : Type} (e : StoreEnv) (s : Store σ) (st : σ) (p : Path) :
    (∀ r, Store.Get e s st p = .ok r →
      Store.GetChan e s st p = some (.ok ⟨[r], 1, true⟩) ∧
      Chan.recv (⟨[r], 1, true⟩ : Chan RecordData) = some (r, ⟨[], 1, true⟩) ∧
      Chan.recv (⟨[], 1, true⟩ : Chan RecordData) = none) ∧
    (∀ err, Store.Get e s st p = .error err → Store.GetChan e s st p = some (.error err)) := by
  constructor
  · intro r hr
    refine ⟨?_, rfl, rfl⟩
    simp [Store.GetChan, hr, Chan.make, Chan.send, Chan.close]
  · intro err herr
    simp [Store.GetChan, herr]

/-- C17, applied to the sample store: after a `Put` the channel holds the
record, and on the empty backend `GetChan` returns the datastore's error. -/
theorem GetChan_single_shot_witness :
    Store.GetChan sampleEnv sampleStore
        (Store.Put sampleEnv sampleStore emptyBackend "/a" (payloadRecord 1 [10])).1 "/a"
      = some (.ok ⟨[(payloadRecord 1 [10]).toRecordData], 1, true⟩) ∧
    Store.GetChan sampleEnv sampleStore emptyBackend "/a"
      = some (.error "datastore: key not found") :=
  ⟨((GetChan_single_shot sampleEnv sampleStore
      (Store.Put sampleEnv sampleStore emptyBackend "/a" (payloadRecord 1 [10])).1 "/a").1
      (payloadRecord 1 [10]).toRecordData rfl).1,
   (GetChan_single_shot sampleEnv sampleStore emptyBackend "/a").2
      "datastore: key not found" rfl⟩

/-! ## Antisymmetry inherited from the validator -/

theorem Order_pair_of_validator_antisymm (c : DagCodec) (v : Validator) (a b : Record)
    (am bm : Bytes) (ha : Marshal c a = .ok am) (hb : Marshal c b = .ok bm)
    (hv : v.Order a.toRecordData b.toRecordData = -v.Order b.toRecordData a.toRecordData) :
    ∃ x y, Order c v a b = some x ∧ Order c v b a = some y ∧ x = -y := by
  rcases lt_trichotomy a.Version b.Version with h | h | h
  · exact ⟨-1, 1, Order_of_version_lt c v a b h, Order_of_version_gt c v b a h, rfl⟩
  · by_cases h0 : v.Order b.toRecordData a.toRecordData = 0
    · have h0' : v.Order a.toRecordData b.toRecordData = 0 := by rw [hv, h0]; rfl
      refine ⟨bytesCompare am bm, bytesCompare bm am, ?_, ?_, bytesCompare_antisymm am bm⟩
      · rw [Order_of_tie c v a b h h0', mustMarshal_of_ok c a am ha,
          mustMarshal_of_ok c b bm hb]
        rfl
      · rw [Order_of_tie c v b a h.symm h0, mustMarshal_of_ok c a am ha,
          mustMarshal_of_ok c b bm hb]
        rfl
    · have h0' : v.Order a.toRecordData b.toRecordData ≠ 0 := by
        rw [hv]
        exact neg_ne_zero.mpr h0
      exact ⟨_, _, Order_of_validator_ne_zero c v a b h h0',
        Order_of_validator_ne_zero c v b a h.symm h0, hv⟩
  · exact ⟨1, -1, Order_of_version_gt c v a b h, Order_of_version_lt c v b a h, rfl⟩

/-- C20. For records that both marshal: when the validator's answer on
`(a, b)` is the negation of its answer on `(b, a)`, `Order v a b` and
`Order v b a` both return and `Order v a b = -Order v b a`; this is so for
every pair under a validator that always answers `0`. -/
theorem Order_antisymm_inherited (c : DagCodec) (v : Validator) (a b : Record)
    (am bm : Bytes) (ha : Marshal c a = .ok am) (hb : Marshal c b = .ok bm) :
    (v.Order a.toRecordData b.toRecordData = -v.Order b.toRecordData a.toRecordData →
      ∃ x y, Order c v a b = some x ∧ Order c v b a = some y ∧ x = -y) ∧
    ((∀ r r', v.Order r r' = 0) →
      ∃ x y, Order c v a b = some x ∧ Order c v b a = some y ∧ x = -y) := by
  constructor
  · exact Order_pair_of_validator_antisymm c v a b am bm ha hb
  · intro hz
    apply Order_pair_of_validator_antisymm c v a b am bm ha hb
    rw [hz, hz]
    rfl

/-- C20, applied: the validator that always answers `0` on two records of
equal version with payloads `[1]` and `[2]`. -/
theorem Order_antisymm_inherited_witness :
    ∃ x y, Order sampleCodec (constValidator 0) (sampleRecord 1 [1] []) (sampleRecord 1 [2] [])
        = some x ∧
      Order sampleCodec (constValidator 0) (sampleRecord 1 [2] []) (sampleRecord 1 [1] [])
        = some y ∧ x = -y :=
  (Order_antisymm_inherited sampleCodec (constValidator 0) (sampleRecord 1 [1] [])
    (sampleRecord 1 [2] []) [1] [2] rfl rfl).2 (fun _ _ => rfl)

/-! ## Round trip through the constructor of a type -/

/-- With a codec that decodes the encoding of the record's node back to that
node, and a node that carries the required links with the type's hash on its
`@type` link, `UnmarshalType` of `Marshal r` is `t.New` of the record's
node. -/
theorem UnmarshalType_of_Marshal (c : DagCodec) (hash : Node → Bytes) (t : RType)
    (r : Record) (m : Bytes) (hm : Marshal c r = .ok m) (hdec : c.Decoded m = .ok r.Node)
    (ht : HasLinkNamed r.Node "@type") (hv : HasLinkNamed r.Node "value")
    (hty : ∀ tl, GetNodeLink r.Node "@type" = .ok tl → tl.Hash = hash t.Node) :
    Marshal c r = .ok m ∧ UnmarshalType c hash t m = t.New r.Node := by
  obtain ⟨tl, hget, _, _⟩ := GetNodeLink_of_HasLinkNamed r.Node "@type" ht
  have hnode := unmarshalNode_of_links c m r.Node hdec ht hv
  have hnt := nodeType_of_GetNodeLink r.Node tl hget
  refine ⟨hm, ?_⟩
  simp [UnmarshalType, unmarshalTypeNode, NodeHasType, hnode, hnt, hty tl hget]

end Iprs
